import Mathlib

/-!
Verification of the equation-reconstruction logic of the three drag-and-solve
prototypes `mathgodzilla.py`, `mathgodzillatwo.py` and `mathgodzillatwotrig.py`.

The programs manipulate sympy expressions.  We shallowly embed the fragment of
sympy the programs exercise: expressions are sums, products and quotients of
rational constants, the symbol `x`, and applications of the transcendental
functions the third prototype recognises.  Sympy performs automatic
simplification when expressions are combined with `+`, `-`, `*`, `/`
(`0 + e = e`, `1 * e = e`, numeric constants fold, a numeric coefficient is
pulled to the front of a product); the smart constructors `addE`, `subE`,
`mulE`, `divE` model exactly those rewrites.  The denotation `Expr.eval`
interprets an expression as a function of the symbol over the reals; two sympy
expressions that print differently can still denote the same function, and
claims about "the same equation" are settled denotationally (with structural
equality, which implies sympy equality of the auto-simplified objects, used
for the startup examples where it holds on the nose).
-/

namespace MG

/-- The function heads of the third prototype: the five functions its
decomposer recognises and the five inverses `inverse_mapping` targets. -/
inductive Fn where
  | sin | cos | tan | exp | tanh | asin | acos | atan | log | atanh
  deriving DecidableEq, Repr

/-- Symbolic expressions: the fragment of sympy the three programs build.
`const` covers sympy `Integer` and `Rational`, `X` the symbol `x`. -/
inductive Expr where
  | const (q : ℚ)
  | X
  | add (a b : Expr)
  | mul (a b : Expr)
  | div (a b : Expr)
  | app (f : Fn) (a : Expr)
  deriving DecidableEq, Repr

/-- Denotation of a function head as a real function.  The inverse of `tanh`
is not in Mathlib under that name, so it is spelled out via its logarithmic
closed form. -/
noncomputable def Fn.interp : Fn → ℝ → ℝ
  | .sin => Real.sin
  | .cos => Real.cos
  | .tan => Real.tan
  | .exp => Real.exp
  | .tanh => Real.tanh
  | .asin => Real.arcsin
  | .acos => Real.arccos
  | .atan => Real.arctan
  | .log => Real.log
  | .atanh => fun y => Real.log ((1 + y) / (1 - y)) / 2

/-- Denotation of an expression at a value of the symbol `x`. -/
noncomputable def Expr.eval : Expr → ℝ → ℝ
  | .const q, _ => (q : ℝ)
  | .X, v => v
  | .add a b, v => a.eval v + b.eval v
  | .mul a b, v => a.eval v * b.eval v
  | .div a b, v => a.eval v / b.eval v
  | .app f a, v => f.interp (a.eval v)

/-- The numeric value of an expression that is a bare constant. -/
def numOf : Expr → Option ℚ
  | .const q => some q
  | _ => none

theorem numOf_some {e : Expr} {q : ℚ} (h : numOf e = some q) : e = .const q := by
  cases e <;> (simp [numOf] at h; try simp [h])

/-- The leading numeric coefficient of a product, with the rest of the
product. -/
def coeffSplit (e : Expr) : Option (ℚ × Expr) :=
  match e with
  | .mul a b =>
    match numOf a with
    | some q => some (q, b)
    | none => none
  | _ => none

theorem coeffSplit_some {e r : Expr} {q : ℚ} (h : coeffSplit e = some (q, r)) :
    e = .mul (.const q) r := by
  cases e with
  | mul a b =>
    cases ha : numOf a with
    | some p =>
      have := numOf_some ha
      subst this
      simp [coeffSplit, numOf] at h
      simp [h.1, h.2]
    | none => simp [coeffSplit, ha] at h
  | const q => simp [coeffSplit] at h
  | X => simp [coeffSplit] at h
  | add a b => simp [coeffSplit] at h
  | div a b => simp [coeffSplit] at h
  | app f a => simp [coeffSplit] at h

/-- Sympy `a + b`: numeric constants fold and zero summands disappear. -/
def addE (a b : Expr) : Expr :=
  match numOf a with
  | some p =>
    match numOf b with
    | some q => .const (p + q)
    | none => if p = 0 then b else .add a b
  | none => if b = .const 0 then a else .add a b

/-- Sympy `a * b`: unit factors disappear, zero annihilates, numeric constants
fold, and a numeric constant times a product led by a numeric constant folds
into one leading coefficient. -/
def mulE (a b : Expr) : Expr :=
  if a = .const 1 then b
  else if b = .const 1 then a
  else if a = .const 0 ∨ b = .const 0 then .const 0
  else
    match numOf a with
    | some p =>
      match numOf b with
      | some q => .const (p * q)
      | none =>
        match coeffSplit b with
        | some (q, e) => if p * q = 1 then e else .mul (.const (p * q)) e
        | none => .mul a b
    | none => .mul a b

/-- Sympy `a - b`, which is `a + (-1)*b`. -/
def subE (a b : Expr) : Expr := addE a (mulE (.const (-1)) b)

/-- Sympy `a / b`: a quotient of constants is a `Rational`, division by a
nonzero constant multiplies by its inverse, anything else stays a quotient.
Division by the zero constant is left as an unevaluated quotient (sympy
produces `zoo`; no claim exercises this). -/
def divE (a b : Expr) : Expr :=
  match numOf b with
  | some q =>
    if q = 0 then .div a b
    else
      match numOf a with
      | some p => .const (p / q)
      | none => mulE (.const q⁻¹) a
  | none => .div a b

theorem eval_addE (a b : Expr) (v : ℝ) : (addE a b).eval v = a.eval v + b.eval v := by
  unfold addE
  cases ha : numOf a with
  | some p =>
    have := numOf_some ha
    subst this
    cases hb : numOf b with
    | some q =>
      have := numOf_some hb
      subst this
      dsimp only
      simp [Expr.eval]
    | none =>
      dsimp only
      split_ifs with h
      · subst h; simp [Expr.eval]
      · simp [Expr.eval]
  | none =>
    dsimp only
    split_ifs with h
    · subst h; simp [Expr.eval]
    · simp [Expr.eval]

theorem eval_mulE (a b : Expr) (v : ℝ) : (mulE a b).eval v = a.eval v * b.eval v := by
  unfold mulE
  split_ifs with h1 h2 h3
  · subst h1; simp [Expr.eval]
  · subst h2; simp [Expr.eval]
  · rcases h3 with h | h <;> subst h <;> simp [Expr.eval]
  · cases ha : numOf a with
    | none => dsimp only; simp [Expr.eval]
    | some p =>
      have := numOf_some ha
      subst this
      cases hb : numOf b with
      | some q =>
        have := numOf_some hb
        subst this
        dsimp only
        simp [Expr.eval]
      | none =>
        cases hc : coeffSplit b with
        | none => dsimp only; simp [Expr.eval]
        | some pe =>
          obtain ⟨q, e⟩ := pe
          have := coeffSplit_some hc
          subst this
          dsimp only
          split_ifs with h4
          · have h5 : (p : ℝ) * (q : ℝ) = 1 := by exact_mod_cast h4
            simp only [Expr.eval]
            rw [← mul_assoc, h5, one_mul]
          · simp [Expr.eval]
            ring

theorem eval_subE (a b : Expr) (v : ℝ) : (subE a b).eval v = a.eval v - b.eval v := by
  rw [subE, eval_addE, eval_mulE]
  simp [Expr.eval]
  ring

theorem eval_divE (a b : Expr) (v : ℝ) : (divE a b).eval v = a.eval v / b.eval v := by
  unfold divE
  cases hb : numOf b with
  | none => dsimp only; simp [Expr.eval]
  | some q =>
    have := numOf_some hb
    subst this
    dsimp only
    split_ifs with h1
    · simp [Expr.eval]
    · cases ha : numOf a with
      | some p =>
        have := numOf_some ha
        subst this
        dsimp only
        simp [Expr.eval]
      | none =>
        dsimp only
        rw [eval_mulE]
        simp [Expr.eval]
        ring

/-- Kernel-friendly rendering of a rational (sympy prints `Integer` and
`Rational` this way). -/
def ratStr (q : ℚ) : String :=
  if q.den = 1 then toString q.num else toString q.num ++ "/" ++ toString q.den

def Fn.fnName : Fn → String
  | .sin => "sin"
  | .cos => "cos"
  | .tan => "tan"
  | .exp => "exp"
  | .tanh => "tanh"
  | .asin => "asin"
  | .acos => "acos"
  | .atan => "atan"
  | .log => "log"
  | .atanh => "atanh"

/-- A rendering of expressions for the display labels and history strings (the
claims never inspect the rendering itself, only how many entries are
appended). -/
def Expr.toStr : Expr → String
  | .const q => ratStr q
  | .X => "x"
  | .add a b => a.toStr ++ " + " ++ b.toStr
  | .mul a b => a.toStr ++ "*" ++ b.toStr
  | .div a b => a.toStr ++ "/" ++ b.toStr
  | .app f a => f.fnName ++ "(" ++ a.toStr ++ ")"

/-- Side of the equation a token currently sits on: `"lhs"` or `"rhs"`. -/
inductive Side where
  | lhs | rhs
  deriving DecidableEq, Repr

/-- The sign a token's side gives its contribution: the loops compute
`sign = 1 if location == "lhs" else -1`. -/
def sideSign : Side → ℚ
  | .lhs => 1
  | .rhs => -1

def oppSide : Side → Side
  | .lhs => .rhs
  | .rhs => .lhs

/-- A symbolic equation `lhs = rhs` (sympy `Eq`); every reconstruction returns
one with right-hand side `0`. -/
structure Equation where
  lhs : Expr
  rhs : Expr
  deriving DecidableEq, Repr

def eqToStr (e : Equation) : String := "Eq(" ++ e.lhs.toStr ++ ", " ++ e.rhs.toStr ++ ")"

def solToStr (sol : List Expr) : String :=
  "[" ++ String.intercalate ", " (sol.map Expr.toStr) ++ "]"

/-- Models sympy `term.has(x)`. -/
def Expr.hasX : Expr → Bool
  | .const _ => false
  | .X => true
  | .add a b => a.hasX || b.hasX
  | .mul a b => a.hasX || b.hasX
  | .div a b => a.hasX || b.hasX
  | .app _ a => a.hasX

/-- Models sympy `term.is_Mul`. -/
def Expr.is_Mul : Expr → Bool
  | .mul _ _ => true
  | _ => false

/-- Models sympy `as_coeff_Mul` (and `as_coeff_mul(x)` followed by rebuilding
the remaining factors with `Mul`): split the leading rational coefficient off
a product; an expression without one has coefficient `1`. -/
def Expr.as_coeff_Mul (e : Expr) : ℚ × Expr :=
  match coeffSplit e with
  | some (q, r) => (q, r)
  | none => (1, e)

/-- Models `isinstance(e, sp.Function)`: the expression is a function
application. -/
def Expr.is_Function : Expr → Bool
  | .app _ _ => true
  | _ => false

/-- Models `term.func in [sp.sin, sp.cos, sp.tan, sp.exp, sp.tanh]`. -/
def Expr.headIsTrig : Expr → Bool
  | .app f _ =>
    decide (f = Fn.sin) || decide (f = Fn.cos) || decide (f = Fn.tan) ||
      decide (f = Fn.exp) || decide (f = Fn.tanh)
  | _ => false

theorem filter_filter_of_imp {α : Type} (p q : α → Bool) (l : List α)
    (h : ∀ a, q a = true → p a = true) : (l.filter p).filter q = l.filter q := by
  induction l with
  | nil => rfl
  | cons a t ih =>
    by_cases hp : p a = true
    · by_cases hq : q a = true <;> simp [List.filter_cons, hp, hq, ih]
    · have hq : ¬ q a = true := fun hq => hp (h a hq)
      simp [List.filter_cons, hp, hq, ih]

/-! ## Variant 1: `mathgodzilla.py` (whole-term tokens) -/

namespace MG1

/-- A draggable term of the first prototype (the dict value of
`draggable_terms`, plus its key as `label`).  The Python store is a dict keyed
by label with insertion-ordered iteration, so an ordered list of records
models it. -/
structure Term1 where
  label : String
  expr : Expr
  pos : Int × Int
  location : Side
  deriving DecidableEq, Repr

/-- The module-level mutable state the functions of variant 1 touch. -/
structure State1 where
  draggable_terms : List Term1
  solution : Option (List Expr)
  history : List String
  deriving DecidableEq, Repr

/-- The loop body of `update_equation` (lines 53-60): lhs terms are added,
rhs terms subtracted. -/
def updateLhs (ts : List Term1) : Expr :=
  ts.foldl
    (fun acc t => if t.location = Side.lhs then addE acc t.expr else subE acc t.expr)
    (Expr.const 0)

/-- `update_equation` (lines 47-64): rebuilds `Eq(lhs_expr, 0)` from the token
store, appends one history entry, and returns the equation. -/
def update_equation (st : State1) : Equation × State1 :=
  let eq : Equation := ⟨updateLhs st.draggable_terms, Expr.const 0⟩
  (eq, { st with history := st.history ++ ["Updated equation: " ++ eqToStr eq] })

/-- `solve_expression` (lines 66-69).  The sympy call is the external oracle:
its outcome (a solution list, or a raised exception) is the `res` argument.
There is no guard, so a raised exception propagates out (the `.error` case)
before `solution` or `history` is touched. -/
def solve_expression (res : Except String (List Expr)) (eq : Equation) (st : State1) :
    Except String State1 :=
  match res with
  | .ok sol =>
    .ok { st with
      solution := some sol,
      history := st.history ++ ["Solving for x: " ++ eqToStr eq ++ " -> x = " ++ solToStr sol] }
  | .error e => .error e

/-- Models sympy `sympify("2*x + 3 - 5")`: automatic `Add` simplification
folds the numeric terms `3 - 5` to `-2`, giving `2*x - 2`. -/
def expr0 : Expr := .add (.mul (.const 2) .X) (.const (-2))

/-- Models `expr.as_ordered_terms()` on the startup expression. -/
def terms_list : List Expr := [.mul (.const 2) .X, .const (-2)]

/-- The startup decomposition loop (lines 33-39): one record per ordered
term, labelled by its printed form, at `(200 + i*150, 200)`, on the lhs. -/
def startup_terms : List Term1 :=
  terms_list.enum.map fun p =>
    { label := (p.2).toStr, expr := p.2, pos := (200 + 150 * (p.1 : Int), 200),
      location := Side.lhs }

def startupState : State1 :=
  { draggable_terms := startup_terms, solution := none, history := [] }

/-- The side part of the pointer-up handler (lines 115-123), abstracted over
the side the midline test assigns. -/
def dropTo (s : Side) (t : Term1) : Term1 := { t with location := s }

/-- Dropping every token on the side opposite to its current one. -/
def moveAllOpposite (ts : List Term1) : List Term1 :=
  ts.map fun t => dropTo (oppSide t.location) t

/-- Moving every token to the opposite side and then back again. -/
def moveOppTwice (ts : List Term1) : List Term1 := moveAllOpposite (moveAllOpposite ts)

end MG1

/-! ## Variant 2: `mathgodzillatwo.py` (coefficient/variable sub-tokens) -/

namespace MG2

inductive Part2 where
  | coeff | var | single
  deriving DecidableEq, Repr

/-- A draggable object of the second prototype (lines 36-47). -/
structure Obj2 where
  id : ℕ
  group : Option ℕ
  part : Part2
  text : String
  expr : Expr
  pos : Int × Int
  location : Side
  deriving DecidableEq, Repr

structure DecState2 where
  draggable_objects : List Obj2
  object_id : ℕ
  group_id : ℕ

/-- A freshly created draggable record (initially on the lhs). -/
def newObj (idv : ℕ) (group : Option ℕ) (part : Part2) (text : String)
    (expr_value : Expr) (pos : Int × Int) : Obj2 :=
  { id := idv, group := group, part := part, text := text, expr := expr_value,
    pos := pos, location := Side.lhs }

/-- `add_draggable_object` (lines 36-47): appends a record with the next id,
initially on the lhs. -/
def add_draggable_object (s : DecState2) (group : Option ℕ) (part : Part2) (text : String)
    (expr_value : Expr) (pos : Int × Int) : DecState2 :=
  { s with
    draggable_objects := s.draggable_objects ++ [newObj s.object_id group part text expr_value pos],
    object_id := s.object_id + 1 }

/-- One iteration of the decomposition loop (lines 53-75). -/
def decomposeStep (s : DecState2) (term : Expr) : DecState2 :=
  if term.hasX && term.is_Mul then
    let c := term.as_coeff_Mul
    if c.1 ≠ 1 ∧ c.1 ≠ -1 then
      let s1 := add_draggable_object s (some s.group_id) Part2.coeff (ratStr c.1)
        (Expr.const c.1) (150 + 150 * (s.group_id : Int), 200)
      let s2 := add_draggable_object s1 (some s.group_id) Part2.var (c.2).toStr c.2
        (150 + 150 * (s.group_id : Int) + 60, 200)
      { s2 with group_id := s.group_id + 1 }
    else
      let s1 := add_draggable_object s none Part2.single term.toStr term
        (150 + 150 * (s.group_id : Int), 200)
      { s1 with group_id := s.group_id + 1 }
  else
    let s1 := add_draggable_object s none Part2.single term.toStr term
      (150 + 150 * (s.group_id : Int), 200)
    { s1 with group_id := s.group_id + 1 }

/-- The whole startup decomposition loop. -/
def decompose (terms : List Expr) : List Obj2 :=
  (terms.foldl decomposeStep { draggable_objects := [], object_id := 0, group_id := 0 }).draggable_objects

/-- The members of a group in a store: `[o for o in objs if o["group"] == group]`. -/
def membersG (g : ℕ) (objs : List Obj2) : List Obj2 :=
  objs.filter fun o => decide (o.group = some g)

/-- A store with every token of one group removed. -/
def eraseG (g : ℕ) (objs : List Obj2) : List Obj2 :=
  objs.filter fun o => decide (¬ o.group = some g)

/-- One iteration of the grouped-terms loop of `update_equation`
(lines 92-112), threading the accumulator and the `processed_groups` set.
`none` models the `StopIteration` the bare `next(...)` calls raise when a
two-member group has no coeff-role or no var-role member. -/
def step (objs : List Obj2) (acc : Option (Expr × List ℕ)) (obj : Obj2) :
    Option (Expr × List ℕ) :=
  match acc with
  | none => none
  | some (lhs, processed) =>
    match obj.group with
    | none => some (lhs, processed)
    | some g =>
      if g ∈ processed then some (lhs, processed)
      else
        let group_objs := membersG g objs
        if group_objs.length ≠ 2 then some (lhs, processed)
        else
          match group_objs.find? (fun o => decide (o.part = Part2.coeff)),
                group_objs.find? (fun o => decide (o.part = Part2.var)) with
          | some coeff_obj, some var_obj =>
            let effective_factor :=
              if coeff_obj.location = var_obj.location then coeff_obj.expr
              else divE (Expr.const 1) coeff_obj.expr
            let effective_term := mulE effective_factor var_obj.expr
            some (addE lhs (mulE (Expr.const (sideSign var_obj.location)) effective_term),
              g :: processed)
          | _, _ => none

/-- The single-objects loop of `update_equation` (lines 114-117). -/
def singlesFold (objs : List Obj2) (e : Expr) : Expr :=
  match objs with
  | [] => e
  | o :: t =>
    singlesFold t
      (if o.group = none then addE e (mulE (Expr.const (sideSign o.location)) o.expr) else e)

/-- The body of `update_equation` (lines 80-118) up to the `Eq`: the grouped
loop followed by the singles loop; `none` when a `next(...)` raises. -/
def updateLhs (objs : List Obj2) : Option Expr :=
  (objs.foldl (step objs) (some (Expr.const 0, []))).map fun r => singlesFold objs r.1

structure State2 where
  draggable_objects : List Obj2
  solution : Option (List Expr)
  history : List String
  deriving DecidableEq, Repr

/-- `update_equation` (lines 80-120): when no exception is raised it appends
one history entry and returns `Eq(lhs_expr, 0)`; when a `next` raises, the
exception propagates before the history line runs (`none`). -/
def update_equation (st : State2) : Option (Equation × State2) :=
  (updateLhs st.draggable_objects).map fun l =>
    let eq : Equation := ⟨l, Expr.const 0⟩
    (eq, { st with history := st.history ++ ["Updated equation: " ++ eqToStr eq] })

/-- `solve_equation` (lines 122-125): unguarded, a raised sympy exception
propagates out. -/
def solve_equation (res : Except String (List Expr)) (eq : Equation) (st : State2) :
    Except String State2 :=
  match res with
  | .ok sol =>
    .ok { st with
      solution := some sol,
      history := st.history ++
        ["Solved equation: " ++ eqToStr eq ++ " -> x = " ++ solToStr sol] }
  | .error e => .error e

/-- Models sympy `sympify("2*x + 3")`. -/
def expr0 : Expr := .add (.mul (.const 2) .X) (.const 3)

def terms_list : List Expr := [.mul (.const 2) .X, .const 3]

def startup_objects : List Obj2 := decompose terms_list

def startupState : State2 :=
  { draggable_objects := startup_objects, solution := none, history := [] }

/-- The side part of the pointer-up handler (lines 170-178), abstracted over
the side the midline test assigns. -/
def dropTo (s : Side) (o : Obj2) : Obj2 := { o with location := s }

def moveAllOpposite (objs : List Obj2) : List Obj2 :=
  objs.map fun o => dropTo (oppSide o.location) o

/-- Moving every token to the opposite side and then back again. -/
def moveOppTwice (objs : List Obj2) : List Obj2 := moveAllOpposite (moveAllOpposite objs)

end MG2

/-! ## Variant 3: `mathgodzillatwotrig.py` (function-aware sub-tokens) -/

namespace MG3

inductive Part3 where
  | coeff | var | func | single
  deriving DecidableEq, Repr

/-- A draggable object of the third prototype (lines 45-57), with the
`inverted` flag. -/
structure Obj3 where
  id : ℕ
  group : Option ℕ
  part : Part3
  text : String
  expr : Expr
  pos : Int × Int
  location : Side
  inverted : Bool
  deriving DecidableEq, Repr

/-- `inverse_mapping` (lines 37-43). -/
def inverse_mapping : Fn → Option Fn
  | .sin => some .asin
  | .cos => some .acos
  | .tan => some .atan
  | .exp => some .log
  | .tanh => some .atanh
  | _ => none

/-- `process_object` (lines 97-109): an inverted `func` object whose head is
in the mapping becomes the mapped inverse applied to the original argument;
everything else is returned unchanged. -/
def process_object (obj : Obj3) : Expr :=
  if obj.inverted = true ∧ obj.part = Part3.func then
    match obj.expr with
    | .app f arg =>
      match inverse_mapping f with
      | some fi => .app fi arg
      | none => .app f arg
    | e => e
  else obj.expr

structure DecState3 where
  draggable_objects : List Obj3
  object_id : ℕ
  group_id : ℕ

/-- A freshly created draggable record (on the lhs, not inverted). -/
def newObj (idv : ℕ) (group : Option ℕ) (part : Part3) (text : String)
    (expr_value : Expr) (pos : Int × Int) : Obj3 :=
  { id := idv, group := group, part := part, text := text, expr := expr_value,
    pos := pos, location := Side.lhs, inverted := false }

/-- `add_draggable_object` (lines 45-57): appends a record with the next id,
on the lhs, not inverted. -/
def add_draggable_object (s : DecState3) (group : Option ℕ) (part : Part3) (text : String)
    (expr_value : Expr) (pos : Int × Int) : DecState3 :=
  { s with
    draggable_objects := s.draggable_objects ++ [newObj s.object_id group part text expr_value pos],
    object_id := s.object_id + 1 }

/-- One iteration of the decomposition loop (lines 63-92).  Note that the two
function branches hand out a fresh group id to a single token. -/
def decomposeStep (s : DecState3) (term : Expr) : DecState3 :=
  if term.hasX && term.is_Mul then
    let c := term.as_coeff_Mul
    if c.1 ≠ 1 ∧ c.1 ≠ -1 then
      let s1 := add_draggable_object s (some s.group_id) Part3.coeff (ratStr c.1)
        (Expr.const c.1) (150 + 180 * (s.group_id : Int), 200)
      let s2 := add_draggable_object s1 (some s.group_id) Part3.var (c.2).toStr c.2
        (150 + 180 * (s.group_id : Int) + 60, 200)
      { s2 with group_id := s.group_id + 1 }
    else
      if (c.2).is_Function then
        let s1 := add_draggable_object s (some s.group_id) Part3.func (c.2).toStr c.2
          (150 + 180 * (s.group_id : Int), 200)
        { s1 with group_id := s.group_id + 1 }
      else
        let s1 := add_draggable_object s none Part3.single term.toStr term
          (150 + 180 * (s.group_id : Int), 200)
        { s1 with group_id := s.group_id + 1 }
  else
    if term.headIsTrig then
      let s1 := add_draggable_object s (some s.group_id) Part3.func term.toStr term
        (150 + 180 * (s.group_id : Int), 200)
      { s1 with group_id := s.group_id + 1 }
    else
      let s1 := add_draggable_object s none Part3.single term.toStr term
        (150 + 180 * (s.group_id : Int), 200)
      { s1 with group_id := s.group_id + 1 }

def decompose (terms : List Expr) : List Obj3 :=
  (terms.foldl decomposeStep ⟨[], 0, 0⟩).draggable_objects

/-- `sign * process_object(o)` added to the accumulator: the per-token path of
`update_equation` (lines 140-142 and 144-146). -/
def singleAdd (acc : Expr) (o : Obj3) : Expr :=
  addE acc (mulE (Expr.const (sideSign o.location)) (process_object o))

/-- The members of a group in a store: `[o for o in objs if o["group"] == group]`. -/
def membersG (g : ℕ) (objs : List Obj3) : List Obj3 :=
  objs.filter fun o => decide (o.group = some g)

/-- A store with every token of one group removed. -/
def eraseG (g : ℕ) (objs : List Obj3) : List Obj3 :=
  objs.filter fun o => decide (¬ o.group = some g)

/-- One iteration of the loop of `update_equation` (lines 122-146), threading
the accumulator and `processed_groups`.  A two-member group uses the raw
`expr` fields of its coeff and first non-coeff member (no `process_object`);
every other group size falls back to per-token processing. -/
def step (objs : List Obj3) (acc : Expr × List ℕ) (obj : Obj3) : Expr × List ℕ :=
  match obj.group with
  | none => (singleAdd acc.1 obj, acc.2)
  | some g =>
    if g ∈ acc.2 then acc
    else
      let group_objs := membersG g objs
      if group_objs.length = 2 then
        match group_objs.find? (fun o => decide (o.part = Part3.coeff)),
              group_objs.find? (fun o => decide (¬ o.part = Part3.coeff)) with
        | some coeff_obj, some other_obj =>
          let effective :=
            if coeff_obj.location = other_obj.location then mulE coeff_obj.expr other_obj.expr
            else divE other_obj.expr coeff_obj.expr
          (addE acc.1 (mulE (Expr.const (sideSign other_obj.location)) effective), g :: acc.2)
        | _, _ => (acc.1, g :: acc.2)
      else
        (group_objs.foldl singleAdd acc.1, g :: acc.2)

/-- The body of `update_equation` (lines 111-147) up to the `Eq`. -/
def updateLhs (objs : List Obj3) : Expr :=
  (objs.foldl (step objs) (Expr.const 0, [])).1

/-- The value the displayed solution can hold: a solution list from solving,
or an expression from integrating/differentiating. -/
inductive SolVal where
  | roots (rs : List Expr)
  | val (e : Expr)
  deriving DecidableEq, Repr

structure State3 where
  draggable_objects : List Obj3
  solution : Option SolVal
  history : List String
  deriving DecidableEq, Repr

/-- `update_equation` (lines 111-149): total; appends one history entry and
returns `Eq(lhs_expr, 0)`. -/
def update_equation (st : State3) : Equation × State3 :=
  let eq : Equation := ⟨updateLhs st.draggable_objects, Expr.const 0⟩
  (eq, { st with history := st.history ++ ["Updated eq: " ++ eqToStr eq] })

/-- `solve_eq` (lines 151-157): the sympy call's outcome is the oracle
argument; an exception is caught and logged, `solution` untouched. -/
def solve_eq (res : Except String (List Expr)) (eq : Equation) (st : State3) : State3 :=
  match res with
  | .ok sol =>
    { st with
      solution := some (SolVal.roots sol),
      history := st.history ++ ["Solved eq: " ++ eqToStr eq ++ " -> x = " ++ solToStr sol] }
  | .error e => { st with history := st.history ++ ["Error solving eq: " ++ e] }

/-- `integrate_eq` (lines 159-165). -/
def integrate_eq (res : Except String Expr) (eq : Equation) (st : State3) : State3 :=
  match res with
  | .ok r =>
    { st with
      solution := some (SolVal.val r),
      history := st.history ++
        ["Integrated eq lhs: " ++ (eq.lhs).toStr ++ " dx -> " ++ r.toStr] }
  | .error e => { st with history := st.history ++ ["Error integrating eq: " ++ e] }

/-- `differentiate_eq` (lines 167-173). -/
def differentiate_eq (res : Except String Expr) (eq : Equation) (st : State3) : State3 :=
  match res with
  | .ok r =>
    { st with
      solution := some (SolVal.val r),
      history := st.history ++
        ["Differentiated eq lhs: " ++ (eq.lhs).toStr ++ " -> " ++ r.toStr] }
  | .error e => { st with history := st.history ++ ["Error differentiating eq: " ++ e] }

/-- Models sympy `sympify("2*sin(x) + 3*cos(x) + exp(x) + tanh(x)")`. -/
def expr0 : Expr :=
  .add
    (.add (.add (.mul (.const 2) (.app .sin .X)) (.mul (.const 3) (.app .cos .X)))
      (.app .exp .X))
    (.app .tanh .X)

def terms_list : List Expr :=
  [.mul (.const 2) (.app .sin .X), .mul (.const 3) (.app .cos .X), .app .exp .X,
    .app .tanh .X]

def startup_objects : List Obj3 := decompose terms_list

def startupState : State3 :=
  { draggable_objects := startup_objects, solution := none, history := [] }

/-- The side/inversion part of the pointer-up handler (lines 217-228),
abstracted over the side the midline test assigns: `location` is set, and a
`func` token's `inverted` flag becomes `location == "rhs"`. -/
def dropTo (s : Side) (o : Obj3) : Obj3 :=
  { o with location := s,
           inverted := if o.part = Part3.func then decide (s = Side.rhs) else o.inverted }

def moveAllOpposite (objs : List Obj3) : List Obj3 :=
  objs.map fun o => dropTo (oppSide o.location) o

/-- Moving every token to the opposite side and then back again. -/
def moveOppTwice (objs : List Obj3) : List Obj3 := moveAllOpposite (moveAllOpposite objs)

/-! ### How one group contributes to the reconstruction (variant 3) -/

theorem eval_singleAdd (acc : Expr) (o : Obj3) (v : ℝ) :
    (singleAdd acc o).eval v =
      acc.eval v + ((sideSign o.location : ℚ) : ℝ) * (process_object o).eval v := by
  rw [singleAdd, eval_addE, eval_mulE]
  rfl

/-- The sum the per-token fallback path adds for a list of group members. -/
noncomputable def contribMembers (gobjs : List Obj3) (v : ℝ) : ℝ :=
  (gobjs.map fun o => ((sideSign o.location : ℚ) : ℝ) * (process_object o).eval v).sum

theorem eval_membersFold (l : List Obj3) (acc : Expr) (v : ℝ) :
    (l.foldl singleAdd acc).eval v = acc.eval v + contribMembers l v := by
  induction l generalizing acc with
  | nil => simp [contribMembers]
  | cons o t ih =>
    rw [List.foldl_cons, ih, eval_singleAdd]
    simp [contribMembers]
    ring

/-- The amount `update_equation` adds for one group the first time it meets
it, by the cases of the loop body. -/
noncomputable def groupContrib (objs : List Obj3) (g : ℕ) (v : ℝ) : ℝ :=
  if (membersG g objs).length = 2 then
    match (membersG g objs).find? (fun o => decide (o.part = Part3.coeff)),
          (membersG g objs).find? (fun o => decide (¬ o.part = Part3.coeff)) with
    | some coeff_obj, some other_obj =>
      ((sideSign other_obj.location : ℚ) : ℝ) *
        (if coeff_obj.location = other_obj.location then
           coeff_obj.expr.eval v * other_obj.expr.eval v
         else other_obj.expr.eval v / coeff_obj.expr.eval v)
    | _, _ => 0
  else contribMembers (membersG g objs) v

theorem step_eq_none3 {S : List Obj3} {acc : Expr × List ℕ} {o : Obj3}
    (ho : o.group = none) : step S acc o = (singleAdd acc.1 o, acc.2) := by
  unfold step
  rw [ho]

theorem step_eq_skip3 {S : List Obj3} {acc : Expr × List ℕ} {o : Obj3} {g : ℕ}
    (ho : o.group = some g) (hg : g ∈ acc.2) : step S acc o = acc := by
  unfold step
  rw [ho]
  simp [hg]

/-- What the step does on a not-yet-processed group member: the accumulator
grows by the group's contribution and the group is marked processed. -/
theorem step_fresh (S : List Obj3) (acc : Expr × List ℕ) (o : Obj3) (g : ℕ) (v : ℝ)
    (ho : o.group = some g) (hg : g ∉ acc.2) :
    (step S acc o).1.eval v = acc.1.eval v + groupContrib S g v ∧
      (step S acc o).2 = g :: acc.2 := by
  unfold step
  rw [ho]
  simp only [hg, if_false, ite_false]
  by_cases hlen : (membersG g S).length = 2
  · simp only [hlen, if_true, ite_true]
    cases hf1 : (membersG g S).find? (fun o2 => decide (o2.part = Part3.coeff)) with
    | none =>
      simp only [groupContrib, hlen, if_true, hf1]
      constructor
      · dsimp only
        ring
      · trivial
    | some co =>
      cases hf2 : (membersG g S).find? (fun o2 => decide (¬ o2.part = Part3.coeff)) with
      | none =>
        simp only [groupContrib, hlen, if_true, hf1, hf2]
        constructor
        · dsimp only
          ring
        · trivial
      | some oo =>
        simp only [groupContrib, hlen, if_true, hf1, hf2]
        constructor
        · dsimp only
          rw [eval_addE, eval_mulE]
          by_cases hloc : co.location = oo.location
          · simp only [hloc, if_true, ite_true, eval_mulE]
            simp [Expr.eval]
          · simp only [hloc, if_false, ite_false, eval_divE]
            simp [Expr.eval]
        · trivial
  · simp only [hlen, if_false, ite_false]
    constructor
    · dsimp only
      rw [eval_membersFold]
      simp [groupContrib, hlen]
    · trivial

theorem membersG_eraseG3 {S : List Obj3} {g g2 : ℕ} (h : g2 ≠ g) :
    membersG g2 (eraseG g S) = membersG g2 S := by
  apply filter_filter_of_imp
  intro a ha
  simp only [decide_eq_true_eq] at ha ⊢
  rw [ha]
  simp [h]

/-- The main decomposition: folding the loop body over a store, and over the
store with one group erased, keeps the processed sets in agreement away from
the erased group and makes the accumulators differ by exactly that group's
contribution (counted once, and only if a member occurs). -/
theorem step_erase_aux3 (S : List Obj3) (g : ℕ) (v : ℝ) (L : List Obj3) :
    ∀ (e1 e2 : Expr) (p1 p2 : List ℕ),
      (∀ k : ℕ, k ≠ g → (k ∈ p1 ↔ k ∈ p2)) → g ∉ p2 →
      (∀ k : ℕ, k ≠ g →
        (k ∈ (L.foldl (step S) (e1, p1)).2 ↔
          k ∈ ((eraseG g L).foldl (step (eraseG g S)) (e2, p2)).2)) ∧
      g ∉ ((eraseG g L).foldl (step (eraseG g S)) (e2, p2)).2 ∧
      (L.foldl (step S) (e1, p1)).1.eval v =
        ((eraseG g L).foldl (step (eraseG g S)) (e2, p2)).1.eval v +
          (e1.eval v - e2.eval v) +
          (if g ∈ p1 then 0
           else if L.any (fun o => decide (o.group = some g)) then groupContrib S g v
           else 0) := by
  induction L with
  | nil =>
    intro e1 e2 p1 p2 hrel hgp2
    refine ⟨hrel, hgp2, ?_⟩
    simp only [eraseG, List.filter_nil, List.foldl_nil, List.any_nil]
    simp
  | cons o T ih =>
    intro e1 e2 p1 p2 hrel hgp2
    rcases ho : o.group with _ | g2
    · -- ungrouped token: both folds add the same amount
      have hkeep : eraseG g (o :: T) = o :: eraseG g T := by
        simp [eraseG, List.filter_cons, ho]
      rw [List.foldl_cons, hkeep, List.foldl_cons, step_eq_none3 ho, step_eq_none3 ho]
      obtain ⟨ih1, ih2, ih3⟩ :=
        ih (singleAdd e1 o) (singleAdd e2 o) p1 p2 hrel hgp2
      refine ⟨ih1, ih2, ?_⟩
      rw [ih3, eval_singleAdd, eval_singleAdd]
      have hany : (o :: T).any (fun o2 => decide (o2.group = some g)) =
          T.any (fun o2 => decide (o2.group = some g)) := by
        simp [List.any_cons, ho]
      rw [hany]
      ring
    · by_cases hgg : g2 = g
      · subst hgg
        -- a member of the erased group: dropped from the second fold
        have hdrop : eraseG g2 (o :: T) = eraseG g2 T := by
          simp [eraseG, List.filter_cons, ho]
        rw [List.foldl_cons, hdrop]
        by_cases hp1 : g2 ∈ p1
        · rw [step_eq_skip3 ho hp1]
          obtain ⟨ih1, ih2, ih3⟩ := ih e1 e2 p1 p2 hrel hgp2
          refine ⟨ih1, ih2, ?_⟩
          rw [ih3]
          simp [hp1]
        · obtain ⟨hs1, hs2⟩ := step_fresh S (e1, p1) o g2 v ho hp1
          have he1 : step S (e1, p1) o = ((step S (e1, p1) o).1, g2 :: p1) := by
            rw [← hs2]
          have hrel2 : ∀ k : ℕ, k ≠ g2 → (k ∈ g2 :: p1 ↔ k ∈ p2) := by
            intro k hk
            rw [List.mem_cons]
            constructor
            · rintro (h | h)
              · exact absurd h hk
              · exact (hrel k hk).mp h
            · intro h
              exact Or.inr ((hrel k hk).mpr h)
          obtain ⟨ih1, ih2, ih3⟩ :=
            ih (step S (e1, p1) o).1 e2 (g2 :: p1) p2 hrel2 hgp2
          rw [he1]
          refine ⟨ih1, ih2, ?_⟩
          rw [ih3, hs1]
          have hm1 : g2 ∈ g2 :: p1 := List.mem_cons_self g2 p1
          have hany : (o :: T).any (fun o2 => decide (o2.group = some g2)) = true := by
            simp [List.any_cons, ho]
          rw [hany, if_pos hm1, if_neg hp1]
          simp
          ring
      · -- a member of a different group: both folds treat it identically
        have hkeep : eraseG g (o :: T) = o :: eraseG g T := by
          simp [eraseG, List.filter_cons, ho, hgg]
        rw [List.foldl_cons, hkeep, List.foldl_cons]
        have hany : (o :: T).any (fun o2 => decide (o2.group = some g)) =
            T.any (fun o2 => decide (o2.group = some g)) := by
          simp [List.any_cons, ho, hgg]
        by_cases hp1 : g2 ∈ p1
        · have hp2 : g2 ∈ p2 := (hrel g2 hgg).mp hp1
          rw [step_eq_skip3 ho hp1, step_eq_skip3 ho hp2]
          obtain ⟨ih1, ih2, ih3⟩ := ih e1 e2 p1 p2 hrel hgp2
          refine ⟨ih1, ih2, ?_⟩
          rw [ih3, hany]
        · have hp2 : g2 ∉ p2 := fun h => hp1 ((hrel g2 hgg).mpr h)
          obtain ⟨hs1, hs2⟩ := step_fresh S (e1, p1) o g2 v ho hp1
          obtain ⟨hs3, hs4⟩ := step_fresh (eraseG g S) (e2, p2) o g2 v ho hp2
          have hcontrib : groupContrib (eraseG g S) g2 v = groupContrib S g2 v := by
            unfold groupContrib
            rw [membersG_eraseG3 hgg]
          rw [hcontrib] at hs3
          have he1 : step S (e1, p1) o = ((step S (e1, p1) o).1, g2 :: p1) := by
            rw [← hs2]
          have he2 : step (eraseG g S) (e2, p2) o
              = ((step (eraseG g S) (e2, p2) o).1, g2 :: p2) := by
            rw [← hs4]
          have hrel2 : ∀ k : ℕ, k ≠ g → (k ∈ g2 :: p1 ↔ k ∈ g2 :: p2) := by
            intro k hk
            rw [List.mem_cons, List.mem_cons]
            constructor
            · rintro (h | h)
              · exact Or.inl h
              · exact Or.inr ((hrel k hk).mp h)
            · rintro (h | h)
              · exact Or.inl h
              · exact Or.inr ((hrel k hk).mpr h)
          have hgp2b : g ∉ g2 :: p2 := by
            rw [List.mem_cons]
            rintro (h | h)
            · exact hgg (h.symm)
            · exact hgp2 h
          obtain ⟨ih1, ih2, ih3⟩ :=
            ih (step S (e1, p1) o).1 (step (eraseG g S) (e2, p2) o).1
              (g2 :: p1) (g2 :: p2) hrel2 hgp2b
          rw [he1, he2]
          refine ⟨ih1, ih2, ?_⟩
          rw [ih3, hs1, hs3, hany]
          by_cases hgp1 : g ∈ p1
          · have h1 : g ∈ g2 :: p1 := List.mem_cons_of_mem g2 hgp1
            rw [if_pos h1, if_pos hgp1]
            ring
          · have h1 : g ∉ g2 :: p1 := by
              rw [List.mem_cons]
              rintro (h2 | h2)
              · exact hgg h2.symm
              · exact hgp1 h2
            rw [if_neg h1, if_neg hgp1]
            ring

/-- Erasing a whole group from a store changes the reconstructed left-hand
side by exactly that group's contribution. -/
theorem updateLhs_erase3 (S : List Obj3) (g : ℕ) (v : ℝ) :
    (updateLhs S).eval v = (updateLhs (eraseG g S)).eval v + groupContrib S g v := by
  obtain ⟨-, -, h3⟩ :=
    step_erase_aux3 S g v S (Expr.const 0) (Expr.const 0) [] []
      (by intro k hk; simp) (by simp)
  rw [updateLhs, updateLhs]
  rw [h3]
  by_cases hany : S.any (fun o => decide (o.group = some g)) = true
  · simp [hany, Expr.eval]
  · have hm : membersG g S = [] := by
      rw [membersG, List.filter_eq_nil_iff]
      intro a ha hd
      exact hany (List.any_eq_true.mpr ⟨a, ha, hd⟩)
    have hc : groupContrib S g v = 0 := by
      rw [groupContrib, hm]
      simp [contribMembers]
    rw [hc]
    simp [hany, Expr.eval]

end MG3

/-! ### How one group contributes to the reconstruction (variant 2) -/

namespace MG2

theorem step_none_acc (S : List Obj2) (o : Obj2) : step S none o = none := rfl

theorem foldl_step_none (S : List Obj2) (L : List Obj2) :
    L.foldl (step S) none = none := by
  induction L with
  | nil => rfl
  | cons o T ih => rw [List.foldl_cons, step_none_acc, ih]

theorem step_eq_none2 {S : List Obj2} {lhs : Expr} {p : List ℕ} {o : Obj2}
    (ho : o.group = none) : step S (some (lhs, p)) o = some (lhs, p) := by
  unfold step
  rw [ho]

theorem step_eq_skip2 {S : List Obj2} {lhs : Expr} {p : List ℕ} {o : Obj2} {g : ℕ}
    (ho : o.group = some g) (hg : g ∈ p) : step S (some (lhs, p)) o = some (lhs, p) := by
  unfold step
  rw [ho]
  simp [hg]

theorem step_eq_short {S : List Obj2} {lhs : Expr} {p : List ℕ} {o : Obj2} {g : ℕ}
    (ho : o.group = some g) (hg : g ∉ p) (hlen : ¬ (membersG g S).length = 2) :
    step S (some (lhs, p)) o = some (lhs, p) := by
  unfold step
  rw [ho]
  simp [hg, hlen]

theorem step_eq_pair {S : List Obj2} {lhs : Expr} {p : List ℕ} {o : Obj2} {g : ℕ}
    {co vo : Obj2}
    (ho : o.group = some g) (hg : g ∉ p) (hlen : (membersG g S).length = 2)
    (hco : (membersG g S).find? (fun o2 => decide (o2.part = Part2.coeff)) = some co)
    (hvo : (membersG g S).find? (fun o2 => decide (o2.part = Part2.var)) = some vo) :
    step S (some (lhs, p)) o =
      some (addE lhs (mulE (Expr.const (sideSign vo.location))
        (mulE
          (if co.location = vo.location then co.expr else divE (Expr.const 1) co.expr)
          vo.expr)), g :: p) := by
  unfold step
  rw [ho]
  simp [hg, hlen, hco, hvo]

theorem step_eq_raise_co {S : List Obj2} {lhs : Expr} {p : List ℕ} {o : Obj2} {g : ℕ}
    (ho : o.group = some g) (hg : g ∉ p) (hlen : (membersG g S).length = 2)
    (hco : (membersG g S).find? (fun o2 => decide (o2.part = Part2.coeff)) = none) :
    step S (some (lhs, p)) o = none := by
  unfold step
  rw [ho]
  simp [hg, hlen, hco]

theorem step_eq_raise_vo {S : List Obj2} {lhs : Expr} {p : List ℕ} {o : Obj2} {g : ℕ}
    {co : Obj2}
    (ho : o.group = some g) (hg : g ∉ p) (hlen : (membersG g S).length = 2)
    (hco : (membersG g S).find? (fun o2 => decide (o2.part = Part2.coeff)) = some co)
    (hvo : (membersG g S).find? (fun o2 => decide (o2.part = Part2.var)) = none) :
    step S (some (lhs, p)) o = none := by
  unfold step
  rw [ho]
  simp [hg, hlen, hco, hvo]

/-- What one group adds to the reconstruction in variant 2: only a two-member
group with both roles present contributes `sign * (factor * var)`; a group of
any other size is skipped and contributes nothing. -/
noncomputable def groupContrib (objs : List Obj2) (g : ℕ) (v : ℝ) : ℝ :=
  if (membersG g objs).length = 2 then
    match (membersG g objs).find? (fun o => decide (o.part = Part2.coeff)),
          (membersG g objs).find? (fun o => decide (o.part = Part2.var)) with
    | some coeff_obj, some var_obj =>
      ((sideSign var_obj.location : ℚ) : ℝ) *
        ((if coeff_obj.location = var_obj.location then coeff_obj.expr.eval v
          else 1 / coeff_obj.expr.eval v) * var_obj.expr.eval v)
    | _, _ => 0
  else 0

/-- Group `g` does not make the bare `next(...)` calls raise: if it has
exactly two members then both role lookups succeed. -/
def groupOk (objs : List Obj2) (g : ℕ) : Prop :=
  (membersG g objs).length = 2 →
    (∃ co, (membersG g objs).find? (fun o => decide (o.part = Part2.coeff)) = some co) ∧
    (∃ vo, (membersG g objs).find? (fun o => decide (o.part = Part2.var)) = some vo)

theorem membersG_eraseG2 {S : List Obj2} {g g2 : ℕ} (h : g2 ≠ g) :
    membersG g2 (eraseG g S) = membersG g2 S := by
  apply filter_filter_of_imp
  intro a ha
  simp only [decide_eq_true_eq] at ha ⊢
  rw [ha]
  simp [h]

theorem eval_pairTerm (co vo : Obj2) (v : ℝ) :
    (addE (Expr.const 0) (mulE (Expr.const (sideSign vo.location))
      (mulE
        (if co.location = vo.location then co.expr else divE (Expr.const 1) co.expr)
        vo.expr))).eval v =
    ((sideSign vo.location : ℚ) : ℝ) *
      ((if co.location = vo.location then co.expr.eval v else 1 / co.expr.eval v) *
        vo.expr.eval v) := by
  rw [eval_addE, eval_mulE, eval_mulE]
  by_cases hloc : co.location = vo.location
  · simp [hloc, Expr.eval]
  · simp [hloc, eval_divE, Expr.eval]

theorem step_erase_aux2 (S : List Obj2) (g : ℕ) (v : ℝ) (hok : groupOk S g)
    (L : List Obj2) :
    ∀ (e1 e2 : Expr) (p1 p2 : List ℕ),
      (∀ k : ℕ, k ≠ g → (k ∈ p1 ↔ k ∈ p2)) → g ∉ p2 →
      (L.foldl (step S) (some (e1, p1)) = none ∧
        (eraseG g L).foldl (step (eraseG g S)) (some (e2, p2)) = none) ∨
      (∃ r1 r2, L.foldl (step S) (some (e1, p1)) = some r1 ∧
        (eraseG g L).foldl (step (eraseG g S)) (some (e2, p2)) = some r2 ∧
        (∀ k : ℕ, k ≠ g → (k ∈ r1.2 ↔ k ∈ r2.2)) ∧ g ∉ r2.2 ∧
        r1.1.eval v = r2.1.eval v + (e1.eval v - e2.eval v) +
          (if g ∈ p1 then 0
           else if L.any (fun o => decide (o.group = some g)) then groupContrib S g v
           else 0)) := by
  induction L with
  | nil =>
    intro e1 e2 p1 p2 hrel hgp2
    right
    refine ⟨(e1, p1), (e2, p2), by simp [eraseG], by simp [eraseG], hrel, hgp2, ?_⟩
    simp
  | cons o T ih =>
    intro e1 e2 p1 p2 hrel hgp2
    rcases ho : o.group with _ | g2
    · -- ungrouped token: the first loop leaves the accumulator alone
      have hkeep : eraseG g (o :: T) = o :: eraseG g T := by
        simp [eraseG, List.filter_cons, ho]
      rw [List.foldl_cons, hkeep, List.foldl_cons, step_eq_none2 ho, step_eq_none2 ho]
      have hany : (o :: T).any (fun o2 => decide (o2.group = some g)) =
          T.any (fun o2 => decide (o2.group = some g)) := by
        simp [List.any_cons, ho]
      rw [hany]
      exact ih e1 e2 p1 p2 hrel hgp2
    · by_cases hgg : g2 = g
      · subst hgg
        have hdrop : eraseG g2 (o :: T) = eraseG g2 T := by
          simp [eraseG, List.filter_cons, ho]
        rw [List.foldl_cons, hdrop]
        by_cases hp1 : g2 ∈ p1
        · rw [step_eq_skip2 ho hp1]
          rcases ih e1 e2 p1 p2 hrel hgp2 with h | ⟨r1, r2, h1, h2, h3, h4, h5⟩
          · exact Or.inl h
          · right
            refine ⟨r1, r2, h1, h2, h3, h4, ?_⟩
            rw [h5]
            simp [hp1]
        · by_cases hlen : (membersG g2 S).length = 2
          · obtain ⟨⟨co, hco⟩, ⟨vo, hvo⟩⟩ := hok hlen
            rw [step_eq_pair ho hp1 hlen hco hvo]
            have hrel2 : ∀ k : ℕ, k ≠ g2 → (k ∈ g2 :: p1 ↔ k ∈ p2) := by
              intro k hk
              rw [List.mem_cons]
              constructor
              · rintro (h | h)
                · exact absurd h hk
                · exact (hrel k hk).mp h
              · intro h
                exact Or.inr ((hrel k hk).mpr h)
            rcases ih _ e2 (g2 :: p1) p2 hrel2 hgp2 with h | ⟨r1, r2, h1, h2, h3, h4, h5⟩
            · exact Or.inl h
            · right
              refine ⟨r1, r2, h1, h2, h3, h4, ?_⟩
              rw [h5, eval_addE]
              have hc : (mulE (Expr.const (sideSign vo.location))
                  (mulE (if co.location = vo.location then co.expr
                    else divE (Expr.const 1) co.expr) vo.expr)).eval v
                  = groupContrib S g2 v := by
                have := eval_pairTerm co vo v
                rw [eval_addE] at this
                simp only [Expr.eval] at this
                rw [groupContrib, if_pos hlen, hco, hvo]
                rw [show ((0 : ℚ) : ℝ) + (mulE (Expr.const (sideSign vo.location))
                  (mulE (if co.location = vo.location then co.expr
                    else divE (Expr.const 1) co.expr) vo.expr)).eval v
                  = (mulE (Expr.const (sideSign vo.location))
                  (mulE (if co.location = vo.location then co.expr
                    else divE (Expr.const 1) co.expr) vo.expr)).eval v by ring] at this
                rw [this]
              rw [hc]
              have hm1 : g2 ∈ g2 :: p1 := List.mem_cons_self g2 p1
              have hany : (o :: T).any (fun o2 => decide (o2.group = some g2)) = true := by
                simp [List.any_cons, ho]
              rw [hany, if_pos hm1, if_neg hp1]
              simp
              ring
          · rw [step_eq_short ho hp1 hlen]
            have hgc : groupContrib S g2 v = 0 := by
              simp [groupContrib, hlen]
            rcases ih e1 e2 p1 p2 hrel hgp2 with h | ⟨r1, r2, h1, h2, h3, h4, h5⟩
            · exact Or.inl h
            · right
              refine ⟨r1, r2, h1, h2, h3, h4, ?_⟩
              rw [h5, hgc]
              by_cases hTany : T.any (fun o2 => decide (o2.group = some g2)) = true
              · simp [hp1, hTany]
              · simp [hp1, hTany]
      · -- a member of a different surviving group
        have hkeep : eraseG g (o :: T) = o :: eraseG g T := by
          simp [eraseG, List.filter_cons, ho, hgg]
        rw [List.foldl_cons, hkeep, List.foldl_cons]
        have hmem : membersG g2 (eraseG g S) = membersG g2 S := membersG_eraseG2 hgg
        have hany : (o :: T).any (fun o2 => decide (o2.group = some g)) =
            T.any (fun o2 => decide (o2.group = some g)) := by
          simp [List.any_cons, ho, hgg]
        by_cases hp1 : g2 ∈ p1
        · have hp2 : g2 ∈ p2 := (hrel g2 hgg).mp hp1
          rw [step_eq_skip2 ho hp1, step_eq_skip2 ho hp2, hany]
          exact ih e1 e2 p1 p2 hrel hgp2
        · have hp2 : g2 ∉ p2 := fun h => hp1 ((hrel g2 hgg).mpr h)
          by_cases hlen : (membersG g2 S).length = 2
          · have hlen2 : (membersG g2 (eraseG g S)).length = 2 := by rw [hmem]; exact hlen
            cases hco : (membersG g2 S).find? (fun o2 => decide (o2.part = Part2.coeff)) with
            | none =>
              left
              rw [step_eq_raise_co ho hp1 hlen hco, foldl_step_none]
              rw [step_eq_raise_co ho hp2 hlen2 (by rw [hmem]; exact hco), foldl_step_none]
              exact ⟨rfl, rfl⟩
            | some co =>
              cases hvo : (membersG g2 S).find? (fun o2 => decide (o2.part = Part2.var)) with
              | none =>
                left
                rw [step_eq_raise_vo ho hp1 hlen hco hvo, foldl_step_none]
                rw [step_eq_raise_vo ho hp2 hlen2 (by rw [hmem]; exact hco)
                  (by rw [hmem]; exact hvo), foldl_step_none]
                exact ⟨rfl, rfl⟩
              | some vo =>
                rw [step_eq_pair ho hp1 hlen hco hvo]
                rw [step_eq_pair ho hp2 hlen2 (by rw [hmem]; exact hco)
                  (by rw [hmem]; exact hvo)]
                have hrel2 : ∀ k : ℕ, k ≠ g → (k ∈ g2 :: p1 ↔ k ∈ g2 :: p2) := by
                  intro k hk
                  rw [List.mem_cons, List.mem_cons]
                  constructor
                  · rintro (h | h)
                    · exact Or.inl h
                    · exact Or.inr ((hrel k hk).mp h)
                  · rintro (h | h)
                    · exact Or.inl h
                    · exact Or.inr ((hrel k hk).mpr h)
                have hgp2b : g ∉ g2 :: p2 := by
                  rw [List.mem_cons]
                  rintro (h | h)
                  · exact hgg h.symm
                  · exact hgp2 h
                rcases ih _ _ (g2 :: p1) (g2 :: p2) hrel2 hgp2b with
                  h | ⟨r1, r2, h1, h2, h3, h4, h5⟩
                · exact Or.inl h
                · right
                  refine ⟨r1, r2, h1, h2, h3, h4, ?_⟩
                  rw [h5, eval_addE, eval_addE, hany]
                  by_cases hgp1 : g ∈ p1
                  · have h6 : g ∈ g2 :: p1 := List.mem_cons_of_mem g2 hgp1
                    rw [if_pos h6, if_pos hgp1]
                    ring
                  · have h6 : g ∉ g2 :: p1 := by
                      rw [List.mem_cons]
                      rintro (h7 | h7)
                      · exact hgg h7.symm
                      · exact hgp1 h7
                    rw [if_neg h6, if_neg hgp1]
                    ring
          · have hlen2 : ¬ (membersG g2 (eraseG g S)).length = 2 := by
              rw [hmem]; exact hlen
            rw [step_eq_short ho hp1 hlen, step_eq_short ho hp2 hlen2, hany]
            exact ih e1 e2 p1 p2 hrel hgp2

/-- The per-object summand of the singles loop of variant 2. -/
noncomputable def singlesSum (objs : List Obj2) (v : ℝ) : ℝ :=
  (objs.map fun o =>
    if o.group = none then ((sideSign o.location : ℚ) : ℝ) * o.expr.eval v else 0).sum

theorem eval_singlesFold (L : List Obj2) (e : Expr) (v : ℝ) :
    (singlesFold L e).eval v = e.eval v + singlesSum L v := by
  induction L generalizing e with
  | nil => simp [singlesFold, singlesSum]
  | cons o T ih =>
    rw [singlesFold]
    by_cases ho : o.group = none
    · rw [if_pos ho, ih, eval_addE, eval_mulE]
      simp [singlesSum, ho, Expr.eval]
      ring
    · rw [if_neg ho, ih]
      simp [singlesSum, ho]

theorem singlesSum_eraseG (L : List Obj2) (g : ℕ) (v : ℝ) :
    singlesSum (eraseG g L) v = singlesSum L v := by
  induction L with
  | nil => rfl
  | cons o T ih =>
    by_cases ho : o.group = some g
    · have hd : eraseG g (o :: T) = eraseG g T := by
        simp [eraseG, List.filter_cons, ho]
      rw [hd, ih]
      have hnn : ¬ o.group = none := by
        rw [ho]
        simp
      simp [singlesSum, hnn]
    · have hk : eraseG g (o :: T) = o :: eraseG g T := by
        simp [eraseG, List.filter_cons, ho]
      rw [hk]
      simp only [singlesSum, List.map_cons, List.sum_cons] at ih ⊢
      rw [ih]

/-- Erasing a whole group from a variant-2 store: the reconstruction raises on
the erased store exactly when it raises on the full one, and otherwise loses
exactly that group's contribution (provided the erased group itself is not the
one that raises). -/
theorem updateLhs_erase2 (S : List Obj2) (g : ℕ) (v : ℝ) (hok : groupOk S g) :
    (updateLhs S = none ∧ updateLhs (eraseG g S) = none) ∨
    (∃ L1 L2, updateLhs S = some L1 ∧ updateLhs (eraseG g S) = some L2 ∧
      L1.eval v = L2.eval v + groupContrib S g v) := by
  rcases step_erase_aux2 S g v hok S (Expr.const 0) (Expr.const 0) [] []
      (by intro k hk; simp) (by simp) with ⟨h1, h2⟩ | ⟨r1, r2, h1, h2, -, -, h5⟩
  · left
    rw [updateLhs, h1, updateLhs, h2]
    exact ⟨rfl, rfl⟩
  · right
    refine ⟨singlesFold S r1.1, singlesFold (eraseG g S) r2.1, ?_, ?_, ?_⟩
    · rw [updateLhs, h1]
      rfl
    · rw [updateLhs, h2]
      rfl
    · rw [eval_singlesFold, eval_singlesFold, singlesSum_eraseG, h5]
      by_cases hany : S.any (fun o => decide (o.group = some g)) = true
      · simp [hany, Expr.eval]
        ring
      · have hm : membersG g S = [] := by
          rw [membersG, List.filter_eq_nil_iff]
          intro a ha hd
          exact hany (List.any_eq_true.mpr ⟨a, ha, hd⟩)
        have hgc : groupContrib S g v = 0 := by
          simp [groupContrib, hm]
        rw [hgc]
        simp [hany, Expr.eval]

end MG2

/-! ### Shape of the groups the decomposers create -/

namespace MG2

theorem membersG_append2 (g : ℕ) (l1 l2 : List Obj2) :
    membersG g (l1 ++ l2) = membersG g l1 ++ membersG g l2 := by
  rw [membersG, membersG, membersG, List.filter_append]

theorem membersG_newObj_ne2 {g k : ℕ} (h : ¬ k = g) (idv : ℕ) (pt : Part2) (tx : String)
    (e : Expr) (ps : Int × Int) : membersG g [newObj idv (some k) pt tx e ps] = [] := by
  simp [membersG, newObj, List.filter_cons, h]

theorem membersG_newObj_eq2 (g idv : ℕ) (pt : Part2) (tx : String) (e : Expr)
    (ps : Int × Int) :
    membersG g [newObj idv (some g) pt tx e ps] = [newObj idv (some g) pt tx e ps] := by
  simp [membersG, newObj, List.filter_cons]

theorem membersG_newObj_none2 (g idv : ℕ) (pt : Part2) (tx : String) (e : Expr)
    (ps : Int × Int) : membersG g [newObj idv none pt tx e ps] = [] := by
  simp [membersG, newObj, List.filter_cons]

/-- The invariant of the variant-2 decomposition loop: group ids in the store
are below the running `group_id`, and every nonempty group is exactly one
coeff-role token followed by one var-role token. -/
def DecInv (s : DecState2) : Prop :=
  (∀ o ∈ s.draggable_objects, ∀ k : ℕ, o.group = some k → k < s.group_id) ∧
  (∀ g : ℕ, membersG g s.draggable_objects ≠ [] →
    ∃ co vo, membersG g s.draggable_objects = [co, vo] ∧
      co.part = Part2.coeff ∧ vo.part = Part2.var)

theorem decomposeStep_inv2 (s : DecState2) (t : Expr) (h : DecInv s) :
    DecInv (decomposeStep s t) := by
  obtain ⟨h1, h2⟩ := h
  have hfresh : membersG s.group_id s.draggable_objects = [] := by
    rw [membersG, List.filter_eq_nil_iff]
    intro o ho hd
    rw [decide_eq_true_eq] at hd
    exact absurd (h1 o ho s.group_id hd) (lt_irrefl _)
  have hb : ∀ (gr : Option ℕ) (l : List Obj2),
      (∀ o ∈ l, ∀ k : ℕ, o.group = some k → k ≤ s.group_id) →
      (∀ o ∈ l, ∀ k : ℕ, o.group = some k → k < s.group_id + 1) := by
    intro gr l hl o ho k hk
    exact Nat.lt_succ_of_le (hl o ho k hk)
  unfold decomposeStep
  dsimp only
  split_ifs with hc1 hc2
  · -- coefficient/variable pair with a fresh group id
    constructor
    · intro o ho k hk
      simp only [add_draggable_object, List.mem_append, List.mem_singleton] at ho
      dsimp only
      rcases ho with (ho | ho) | ho
      · exact Nat.lt_succ_of_lt (h1 o ho k hk)
      · subst ho
        simp only [newObj, Option.some.injEq] at hk
        subst hk
        exact Nat.lt_succ_self _
      · subst ho
        simp only [newObj, Option.some.injEq] at hk
        subst hk
        exact Nat.lt_succ_self _
    · intro g hg
      simp only [add_draggable_object] at hg ⊢
      rw [List.append_assoc, membersG_append2, membersG_append2] at hg ⊢
      by_cases hgid : g = s.group_id
      · subst hgid
        rw [hfresh, List.nil_append, membersG_newObj_eq2, membersG_newObj_eq2] at hg ⊢
        exact ⟨_, _, rfl, rfl, rfl⟩
      · rw [membersG_newObj_ne2 (fun h => hgid h.symm),
          membersG_newObj_ne2 (fun h => hgid h.symm), List.append_nil,
          List.append_nil] at hg ⊢
        exact h2 g hg
  · -- unit-coefficient product: one standalone token with no group
    constructor
    · intro o ho k hk
      simp only [add_draggable_object, List.mem_append, List.mem_singleton] at ho
      dsimp only
      rcases ho with ho | ho
      · exact Nat.lt_succ_of_lt (h1 o ho k hk)
      · subst ho
        simp [newObj] at hk
    · intro g hg
      simp only [add_draggable_object] at hg ⊢
      rw [membersG_append2, membersG_newObj_none2, List.append_nil] at hg ⊢
      exact h2 g hg
  · -- constant or non-product term: one standalone token with no group
    constructor
    · intro o ho k hk
      simp only [add_draggable_object, List.mem_append, List.mem_singleton] at ho
      dsimp only
      rcases ho with ho | ho
      · exact Nat.lt_succ_of_lt (h1 o ho k hk)
      · subst ho
        simp [newObj] at hk
    · intro g hg
      simp only [add_draggable_object] at hg ⊢
      rw [membersG_append2, membersG_newObj_none2, List.append_nil] at hg ⊢
      exact h2 g hg

theorem decompose_inv2 (terms : List Expr) :
    ∀ s : DecState2, DecInv s → DecInv (terms.foldl decomposeStep s) := by
  induction terms with
  | nil => intro s h; exact h
  | cons t ts ih =>
    intro s h
    rw [List.foldl_cons]
    exact ih _ (decomposeStep_inv2 s t h)

/-- Every nonempty group of a variant-2 decomposition is one coeff token and
one var token, in that order. -/
theorem decompose_groups2 (terms : List Expr) (g : ℕ)
    (hg : membersG g (decompose terms) ≠ []) :
    ∃ co vo, membersG g (decompose terms) = [co, vo] ∧
      co.part = Part2.coeff ∧ vo.part = Part2.var := by
  have h := decompose_inv2 terms { draggable_objects := [], object_id := 0, group_id := 0 }
    ⟨by intro o ho; simp at ho, by intro g2 hg2; simp [membersG] at hg2⟩
  exact h.2 g hg

end MG2

namespace MG3

theorem membersG_append3 (g : ℕ) (l1 l2 : List Obj3) :
    membersG g (l1 ++ l2) = membersG g l1 ++ membersG g l2 := by
  rw [membersG, membersG, membersG, List.filter_append]

theorem membersG_newObj_ne3 {g k : ℕ} (h : ¬ k = g) (idv : ℕ) (pt : Part3) (tx : String)
    (e : Expr) (ps : Int × Int) : membersG g [newObj idv (some k) pt tx e ps] = [] := by
  simp [membersG, newObj, List.filter_cons, h]

theorem membersG_newObj_eq3 (g idv : ℕ) (pt : Part3) (tx : String) (e : Expr)
    (ps : Int × Int) :
    membersG g [newObj idv (some g) pt tx e ps] = [newObj idv (some g) pt tx e ps] := by
  simp [membersG, newObj, List.filter_cons]

theorem membersG_newObj_none3 (g idv : ℕ) (pt : Part3) (tx : String) (e : Expr)
    (ps : Int × Int) : membersG g [newObj idv none pt tx e ps] = [] := by
  simp [membersG, newObj, List.filter_cons]

/-- The invariant of the variant-3 decomposition loop: group ids are below the
running `group_id`, and every nonempty group is either a coeff/var pair or a
single func-role token. -/
def DecInv (s : DecState3) : Prop :=
  (∀ o ∈ s.draggable_objects, ∀ k : ℕ, o.group = some k → k < s.group_id) ∧
  (∀ g : ℕ, membersG g s.draggable_objects ≠ [] →
    (∃ co vo, membersG g s.draggable_objects = [co, vo] ∧
      co.part = Part3.coeff ∧ vo.part = Part3.var) ∨
    (∃ fo, membersG g s.draggable_objects = [fo] ∧ fo.part = Part3.func))

theorem decomposeStep_inv3 (s : DecState3) (t : Expr) (h : DecInv s) :
    DecInv (decomposeStep s t) := by
  obtain ⟨h1, h2⟩ := h
  have hfresh : membersG s.group_id s.draggable_objects = [] := by
    rw [membersG, List.filter_eq_nil_iff]
    intro o ho hd
    rw [decide_eq_true_eq] at hd
    exact absurd (h1 o ho s.group_id hd) (lt_irrefl _)
  unfold decomposeStep
  dsimp only
  split_ifs with hc1 hc2 hc3 hc4
  · -- coefficient/variable pair with a fresh group id
    constructor
    · intro o ho k hk
      simp only [add_draggable_object, List.mem_append, List.mem_singleton] at ho
      dsimp only
      rcases ho with (ho | ho) | ho
      · exact Nat.lt_succ_of_lt (h1 o ho k hk)
      · subst ho
        simp only [newObj, Option.some.injEq] at hk
        subst hk
        exact Nat.lt_succ_self _
      · subst ho
        simp only [newObj, Option.some.injEq] at hk
        subst hk
        exact Nat.lt_succ_self _
    · intro g hg
      simp only [add_draggable_object] at hg ⊢
      rw [List.append_assoc, membersG_append3, membersG_append3] at hg ⊢
      by_cases hgid : g = s.group_id
      · subst hgid
        rw [hfresh, List.nil_append, membersG_newObj_eq3, membersG_newObj_eq3] at hg ⊢
        left
        exact ⟨_, _, rfl, rfl, rfl⟩
      · rw [membersG_newObj_ne3 (fun h => hgid h.symm),
          membersG_newObj_ne3 (fun h => hgid h.symm), List.append_nil,
          List.append_nil] at hg ⊢
        exact h2 g hg
  · -- unit-coefficient function term: one func token with a fresh group id
    constructor
    · intro o ho k hk
      simp only [add_draggable_object, List.mem_append, List.mem_singleton] at ho
      dsimp only
      rcases ho with ho | ho
      · exact Nat.lt_succ_of_lt (h1 o ho k hk)
      · subst ho
        simp only [newObj, Option.some.injEq] at hk
        subst hk
        exact Nat.lt_succ_self _
    · intro g hg
      simp only [add_draggable_object] at hg ⊢
      rw [membersG_append3] at hg ⊢
      by_cases hgid : g = s.group_id
      · subst hgid
        rw [hfresh, List.nil_append, membersG_newObj_eq3] at hg ⊢
        right
        exact ⟨_, rfl, rfl⟩
      · rw [membersG_newObj_ne3 (fun h => hgid h.symm), List.append_nil] at hg ⊢
        exact h2 g hg
  · -- unit-coefficient non-function product: standalone token, no group
    constructor
    · intro o ho k hk
      simp only [add_draggable_object, List.mem_append, List.mem_singleton] at ho
      dsimp only
      rcases ho with ho | ho
      · exact Nat.lt_succ_of_lt (h1 o ho k hk)
      · subst ho
        simp [newObj] at hk
    · intro g hg
      simp only [add_draggable_object] at hg ⊢
      rw [membersG_append3, membersG_newObj_none3, List.append_nil] at hg ⊢
      exact h2 g hg
  · -- direct function term: one func token with a fresh group id
    constructor
    · intro o ho k hk
      simp only [add_draggable_object, List.mem_append, List.mem_singleton] at ho
      dsimp only
      rcases ho with ho | ho
      · exact Nat.lt_succ_of_lt (h1 o ho k hk)
      · subst ho
        simp only [newObj, Option.some.injEq] at hk
        subst hk
        exact Nat.lt_succ_self _
    · intro g hg
      simp only [add_draggable_object] at hg ⊢
      rw [membersG_append3] at hg ⊢
      by_cases hgid : g = s.group_id
      · subst hgid
        rw [hfresh, List.nil_append, membersG_newObj_eq3] at hg ⊢
        right
        exact ⟨_, rfl, rfl⟩
      · rw [membersG_newObj_ne3 (fun h => hgid h.symm), List.append_nil] at hg ⊢
        exact h2 g hg
  · -- anything else: standalone token, no group
    constructor
    · intro o ho k hk
      simp only [add_draggable_object, List.mem_append, List.mem_singleton] at ho
      dsimp only
      rcases ho with ho | ho
      · exact Nat.lt_succ_of_lt (h1 o ho k hk)
      · subst ho
        simp [newObj] at hk
    · intro g hg
      simp only [add_draggable_object] at hg ⊢
      rw [membersG_append3, membersG_newObj_none3, List.append_nil] at hg ⊢
      exact h2 g hg

theorem decompose_inv3 (terms : List Expr) :
    ∀ s : DecState3, DecInv s → DecInv (terms.foldl decomposeStep s) := by
  induction terms with
  | nil => intro s h; exact h
  | cons t ts ih =>
    intro s h
    rw [List.foldl_cons]
    exact ih _ (decomposeStep_inv3 s t h)

/-- Every nonempty group of a variant-3 decomposition is a coeff/var pair or a
single func token. -/
theorem decompose_groups3 (terms : List Expr) (g : ℕ)
    (hg : membersG g (decompose terms) ≠ []) :
    (∃ co vo, membersG g (decompose terms) = [co, vo] ∧
      co.part = Part3.coeff ∧ vo.part = Part3.var) ∨
    (∃ fo, membersG g (decompose terms) = [fo] ∧ fo.part = Part3.func) := by
  have h := decompose_inv3 terms ⟨[], 0, 0⟩
    ⟨by intro o ho; simp at ho, by intro g2 hg2; simp [membersG] at hg2⟩
  exact h.2 g hg

end MG3

/-! ### Round trips of the interaction surface -/

namespace MG1

theorem move_move1 (t : Term1) :
    dropTo (oppSide (dropTo (oppSide t.location) t).location)
      (dropTo (oppSide t.location) t) = t := by
  cases t with
  | mk lab e p loc => cases loc <;> rfl

theorem roundTrip1 (ts : List Term1) : moveOppTwice ts = ts := by
  unfold moveOppTwice
  induction ts with
  | nil => rfl
  | cons t T ih =>
    simp only [moveAllOpposite, List.map_cons] at ih ⊢
    rw [move_move1 t, ih]

end MG1

namespace MG2

theorem move_move2 (o : Obj2) :
    dropTo (oppSide (dropTo (oppSide o.location) o).location)
      (dropTo (oppSide o.location) o) = o := by
  cases o with
  | mk idv gr pt tx e ps loc => cases loc <;> rfl

theorem roundTrip2 (objs : List Obj2) : moveOppTwice objs = objs := by
  unfold moveOppTwice
  induction objs with
  | nil => rfl
  | cons o T ih =>
    simp only [moveAllOpposite, List.map_cons] at ih ⊢
    rw [move_move2 o, ih]

end MG2

namespace MG3

/-- The inversion flag of every func token agrees with its side.  Every state
the interaction surface reaches satisfies this: tokens start on the lhs with
the flag clear, and every drop re-derives the flag from the new side. -/
def InvFlagsConsistent (objs : List Obj3) : Prop :=
  ∀ o ∈ objs, o.part = Part3.func → o.inverted = decide (o.location = Side.rhs)

theorem move_move3 (o : Obj3)
    (h : o.part = Part3.func → o.inverted = decide (o.location = Side.rhs)) :
    dropTo (oppSide (dropTo (oppSide o.location) o).location)
      (dropTo (oppSide o.location) o) = o := by
  cases o with
  | mk idv gr pt tx e ps loc inv =>
    by_cases hp : pt = Part3.func
    · subst hp
      have h2 := h rfl
      dsimp only at h2
      cases loc
      · have h3 : inv = false := by simpa using h2
        subst h3
        rfl
      · have h3 : inv = true := by simpa using h2
        subst h3
        rfl
    · cases loc <;> simp [dropTo, oppSide, hp]

theorem roundTrip3 (objs : List Obj3) (h : InvFlagsConsistent objs) :
    moveOppTwice objs = objs := by
  unfold moveOppTwice
  induction objs with
  | nil => rfl
  | cons o T ih =>
    have hT : InvFlagsConsistent T := fun x hx => h x (List.mem_cons_of_mem o hx)
    have ho := h o (List.mem_cons_self o T)
    simp only [moveAllOpposite, List.map_cons] at ih ⊢
    rw [move_move3 o ho, ih hT]

end MG3

/-! ### Positions do not influence the reconstruction -/

theorem filter_map_pres {α : Type} (m : α → α) (p : α → Bool) (hp : ∀ a, p (m a) = p a)
    (l : List α) : (l.map m).filter p = (l.filter p).map m := by
  induction l with
  | nil => rfl
  | cons a t ih =>
    by_cases h : p a = true
    · rw [List.map_cons, List.filter_cons, List.filter_cons, if_pos (by rw [hp]; exact h),
        if_pos h, List.map_cons, ih]
    · rw [List.map_cons, List.filter_cons, List.filter_cons, if_neg (by rw [hp]; exact h),
        if_neg h, ih]

theorem find?_map_pres {α : Type} (m : α → α) (p : α → Bool) (hp : ∀ a, p (m a) = p a)
    (l : List α) : (l.map m).find? p = (l.find? p).map m := by
  induction l with
  | nil => rfl
  | cons a t ih =>
    by_cases h : p a = true
    · rw [List.map_cons, List.find?_cons_of_pos _ (by rw [hp]; exact h),
        List.find?_cons_of_pos _ h]
      rfl
    · rw [List.map_cons, List.find?_cons_of_neg _ (by rw [hp]; exact h),
        List.find?_cons_of_neg _ h, ih]

namespace MG1

/-- Repositioning a token without crossing the midline (what pointer motion
does), keyed by label. -/
def setPos (f : String → Int × Int) (t : Term1) : Term1 := { t with pos := f t.label }

theorem updateLhs_setPos1 (f : String → Int × Int) (ts : List Term1) :
    updateLhs (ts.map (setPos f)) = updateLhs ts := by
  unfold updateLhs
  rw [List.foldl_map]
  rfl

end MG1

namespace MG2

/-- Repositioning a token without crossing the midline, keyed by id. -/
def setPos (f : ℕ → Int × Int) (o : Obj2) : Obj2 := { o with pos := f o.id }

theorem membersG_setPos2 (f : ℕ → Int × Int) (g : ℕ) (l : List Obj2) :
    membersG g (l.map (setPos f)) = (membersG g l).map (setPos f) := by
  refine filter_map_pres (setPos f) (fun o => decide (o.group = some g)) (fun a => ?_) l
  rfl

theorem find?_part_setPos (f : ℕ → Int × Int) (pt : Part2) (l : List Obj2) :
    (l.map (setPos f)).find? (fun o2 => decide (o2.part = pt))
      = (l.find? (fun o2 => decide (o2.part = pt))).map (setPos f) := by
  refine find?_map_pres (setPos f) (fun o2 => decide (o2.part = pt)) (fun a => ?_) l
  rfl

theorem step_setPos2 (f : ℕ → Int × Int) (S : List Obj2) (acc : Option (Expr × List ℕ))
    (o : Obj2) : step (S.map (setPos f)) acc (setPos f o) = step S acc o := by
  cases acc with
  | none => rfl
  | some pr =>
    obtain ⟨lhs, processed⟩ := pr
    cases ho : o.group with
    | none =>
      rw [step_eq_none2 (show (setPos f o).group = none from ho), step_eq_none2 ho]
    | some g =>
      by_cases hg : g ∈ processed
      · rw [step_eq_skip2 (show (setPos f o).group = some g from ho) hg,
          step_eq_skip2 ho hg]
      · have hm : membersG g (S.map (setPos f)) = (membersG g S).map (setPos f) :=
          membersG_setPos2 f g S
        have hfc : (membersG g (S.map (setPos f))).find?
              (fun o2 => decide (o2.part = Part2.coeff))
            = ((membersG g S).find? (fun o2 => decide (o2.part = Part2.coeff))).map
                (setPos f) := by
          rw [hm, find?_part_setPos]
        have hfv : (membersG g (S.map (setPos f))).find?
              (fun o2 => decide (o2.part = Part2.var))
            = ((membersG g S).find? (fun o2 => decide (o2.part = Part2.var))).map
                (setPos f) := by
          rw [hm, find?_part_setPos]
        by_cases hlen : (membersG g S).length = 2
        · have hlen2 : (membersG g (S.map (setPos f))).length = 2 := by
            rw [hm, List.length_map]
            exact hlen
          cases hco : (membersG g S).find? (fun o2 => decide (o2.part = Part2.coeff)) with
          | none =>
            rw [step_eq_raise_co (show (setPos f o).group = some g from ho) hg hlen2
                (by rw [hfc, hco]; rfl),
              step_eq_raise_co ho hg hlen hco]
          | some co =>
            cases hvo : (membersG g S).find? (fun o2 => decide (o2.part = Part2.var)) with
            | none =>
              rw [step_eq_raise_vo (show (setPos f o).group = some g from ho) hg hlen2
                  (by rw [hfc, hco]; rfl) (by rw [hfv, hvo]; rfl),
                step_eq_raise_vo ho hg hlen hco hvo]
            | some vo =>
              rw [step_eq_pair (show (setPos f o).group = some g from ho) hg hlen2
                  (by rw [hfc, hco]; rfl) (by rw [hfv, hvo]; rfl),
                step_eq_pair ho hg hlen hco hvo]
              rfl
        · have hlen2 : ¬ (membersG g (S.map (setPos f))).length = 2 := by
            rw [hm, List.length_map]
            exact hlen
          rw [step_eq_short (show (setPos f o).group = some g from ho) hg hlen2,
            step_eq_short ho hg hlen]

theorem singlesFold_setPos (f : ℕ → Int × Int) (S : List Obj2) (e : Expr) :
    singlesFold (S.map (setPos f)) e = singlesFold S e := by
  induction S generalizing e with
  | nil => rfl
  | cons o t ih =>
    rw [List.map_cons]
    show singlesFold (setPos f o :: t.map (setPos f)) e = singlesFold (o :: t) e
    rw [singlesFold, singlesFold, ih]
    rfl

theorem updateLhs_setPos2 (f : ℕ → Int × Int) (S : List Obj2) :
    updateLhs (S.map (setPos f)) = updateLhs S := by
  unfold updateLhs
  rw [List.foldl_map]
  have hstep : (fun (acc : Option (Expr × List ℕ)) (o : Obj2) =>
      step (S.map (setPos f)) acc (setPos f o)) = step S := by
    funext acc o
    exact step_setPos2 f S acc o
  rw [hstep]
  have hsingles : (fun (r : Expr × List ℕ) => singlesFold (S.map (setPos f)) r.1)
      = fun (r : Expr × List ℕ) => singlesFold S r.1 := by
    funext r
    exact singlesFold_setPos f S r.1
  rw [hsingles]

end MG2

namespace MG3

/-- Repositioning a token without crossing the midline, keyed by id. -/
def setPos (f : ℕ → Int × Int) (o : Obj3) : Obj3 := { o with pos := f o.id }

theorem membersG_setPos3 (f : ℕ → Int × Int) (g : ℕ) (l : List Obj3) :
    membersG g (l.map (setPos f)) = (membersG g l).map (setPos f) := by
  refine filter_map_pres (setPos f) (fun o => decide (o.group = some g)) (fun a => ?_) l
  rfl

theorem find?_coeff_setPos (f : ℕ → Int × Int) (l : List Obj3) :
    (l.map (setPos f)).find? (fun o2 => decide (o2.part = Part3.coeff))
      = (l.find? (fun o2 => decide (o2.part = Part3.coeff))).map (setPos f) := by
  refine find?_map_pres (setPos f) (fun o2 => decide (o2.part = Part3.coeff))
    (fun a => ?_) l
  rfl

theorem find?_other_setPos (f : ℕ → Int × Int) (l : List Obj3) :
    (l.map (setPos f)).find? (fun o2 => decide (¬ o2.part = Part3.coeff))
      = (l.find? (fun o2 => decide (¬ o2.part = Part3.coeff))).map (setPos f) := by
  refine find?_map_pres (setPos f) (fun o2 => decide (¬ o2.part = Part3.coeff))
    (fun a => ?_) l
  rfl

theorem membersFold_setPos (f : ℕ → Int × Int) (l : List Obj3) (acc : Expr) :
    (l.map (setPos f)).foldl singleAdd acc = l.foldl singleAdd acc := by
  rw [List.foldl_map]
  rfl

theorem step_eq_pair3 {S : List Obj3} {acc : Expr × List ℕ} {o : Obj3} {g : ℕ}
    {co oo : Obj3}
    (ho : o.group = some g) (hg : g ∉ acc.2) (hlen : (membersG g S).length = 2)
    (hco : (membersG g S).find? (fun o2 => decide (o2.part = Part3.coeff)) = some co)
    (hoo : (membersG g S).find? (fun o2 => decide (¬ o2.part = Part3.coeff)) = some oo) :
    step S acc o =
      (addE acc.1 (mulE (Expr.const (sideSign oo.location))
        (if co.location = oo.location then mulE co.expr oo.expr
         else divE oo.expr co.expr)), g :: acc.2) := by
  unfold step
  rw [ho]
  simp only [hg, if_false, ite_false, hlen, if_true, ite_true, hco, hoo]

theorem step_eq_nopair3 {S : List Obj3} {acc : Expr × List ℕ} {o : Obj3} {g : ℕ}
    (ho : o.group = some g) (hg : g ∉ acc.2) (hlen : (membersG g S).length = 2)
    (hno : (membersG g S).find? (fun o2 => decide (o2.part = Part3.coeff)) = none ∨
      (membersG g S).find? (fun o2 => decide (¬ o2.part = Part3.coeff)) = none) :
    step S acc o = (acc.1, g :: acc.2) := by
  unfold step
  rw [ho]
  rcases hno with h | h
  · cases h2 : (membersG g S).find? (fun o2 => decide (¬ o2.part = Part3.coeff)) with
    | none => simp only [hg, if_false, ite_false, hlen, if_true, ite_true, h, h2]
    | some oo => simp only [hg, if_false, ite_false, hlen, if_true, ite_true, h, h2]
  · cases hco : (membersG g S).find? (fun o2 => decide (o2.part = Part3.coeff)) with
    | none => simp only [hg, if_false, ite_false, hlen, if_true, ite_true, hco, h]
    | some co => simp only [hg, if_false, ite_false, hlen, if_true, ite_true, hco, h]

theorem step_eq_fallback3 {S : List Obj3} {acc : Expr × List ℕ} {o : Obj3} {g : ℕ}
    (ho : o.group = some g) (hg : g ∉ acc.2) (hlen : ¬ (membersG g S).length = 2) :
    step S acc o = ((membersG g S).foldl singleAdd acc.1, g :: acc.2) := by
  unfold step
  rw [ho]
  simp only [hg, if_false, ite_false, hlen]

theorem step_setPos3 (f : ℕ → Int × Int) (S : List Obj3) (acc : Expr × List ℕ)
    (o : Obj3) : step (S.map (setPos f)) acc (setPos f o) = step S acc o := by
  cases ho : o.group with
  | none =>
    rw [step_eq_none3 (show (setPos f o).group = none from ho), step_eq_none3 ho]
    rfl
  | some g =>
    by_cases hg : g ∈ acc.2
    · rw [step_eq_skip3 (show (setPos f o).group = some g from ho) hg,
        step_eq_skip3 ho hg]
    · have hm : membersG g (S.map (setPos f)) = (membersG g S).map (setPos f) :=
        membersG_setPos3 f g S
      have hfc : (membersG g (S.map (setPos f))).find?
            (fun o2 => decide (o2.part = Part3.coeff))
          = ((membersG g S).find? (fun o2 => decide (o2.part = Part3.coeff))).map
              (setPos f) := by
        rw [hm, find?_coeff_setPos]
      have hfo : (membersG g (S.map (setPos f))).find?
            (fun o2 => decide (¬ o2.part = Part3.coeff))
          = ((membersG g S).find? (fun o2 => decide (¬ o2.part = Part3.coeff))).map
              (setPos f) := by
        rw [hm, find?_other_setPos]
      by_cases hlen : (membersG g S).length = 2
      · have hlen2 : (membersG g (S.map (setPos f))).length = 2 := by
          rw [hm, List.length_map]
          exact hlen
        cases hco : (membersG g S).find? (fun o2 => decide (o2.part = Part3.coeff)) with
        | none =>
          rw [step_eq_nopair3 (show (setPos f o).group = some g from ho) hg hlen2
              (Or.inl (by rw [hfc, hco]; rfl)),
            step_eq_nopair3 ho hg hlen (Or.inl hco)]
        | some co =>
          cases hoo : (membersG g S).find?
              (fun o2 => decide (¬ o2.part = Part3.coeff)) with
          | none =>
            rw [step_eq_nopair3 (show (setPos f o).group = some g from ho) hg hlen2
                (Or.inr (by rw [hfo, hoo]; rfl)),
              step_eq_nopair3 ho hg hlen (Or.inr hoo)]
          | some oo =>
            rw [step_eq_pair3 (show (setPos f o).group = some g from ho) hg hlen2
                (by rw [hfc, hco]; rfl) (by rw [hfo, hoo]; rfl),
              step_eq_pair3 ho hg hlen hco hoo]
            rfl
      · have hlen2 : ¬ (membersG g (S.map (setPos f))).length = 2 := by
          rw [hm, List.length_map]
          exact hlen
        rw [step_eq_fallback3 (show (setPos f o).group = some g from ho) hg hlen2,
          step_eq_fallback3 ho hg hlen, hm, membersFold_setPos]

theorem updateLhs_setPos3 (f : ℕ → Int × Int) (S : List Obj3) :
    updateLhs (S.map (setPos f)) = updateLhs S := by
  unfold updateLhs
  rw [List.foldl_map]
  have hstep : (fun (acc : Expr × List ℕ) (o : Obj3) =>
      step (S.map (setPos f)) acc (setPos f o)) = step S := by
    funext acc o
    exact step_setPos3 f S acc o
  rw [hstep]

end MG3

/-! ## The claims -/

/-- A decidable subterm test: whether `t` occurs inside `e`. -/
def Expr.hasSub (e t : Expr) : Bool :=
  decide (e = t) ||
    match e with
    | .add a b => a.hasSub t || b.hasSub t
    | .mul a b => a.hasSub t || b.hasSub t
    | .div a b => a.hasSub t || b.hasSub t
    | .app _ a => a.hasSub t
    | _ => false

/-- The variant-2 startup store with the coefficient token "2" (id 0) dropped
on the rhs: the configuration of the x/2 example. -/
def c1Store2 : List MG2.Obj2 :=
  (MG2.decompose MG2.terms_list).map fun o =>
    if o.id = 0 then MG2.dropTo Side.rhs o else o

def c1Co2 : MG2.Obj2 :=
  MG2.dropTo Side.rhs (MG2.newObj 0 (some 0) MG2.Part2.coeff "2" (.const 2) (150, 200))

def c1Vo2 : MG2.Obj2 := MG2.newObj 1 (some 0) MG2.Part2.var "x" .X (210, 200)

/-- The variant-3 startup store with the coefficient token "2" (id 0) dropped
on the rhs. -/
def c1Store3 : List MG3.Obj3 :=
  (MG3.decompose MG3.terms_list).map fun o =>
    if o.id = 0 then MG3.dropTo Side.rhs o else o

def c1Co3 : MG3.Obj3 :=
  MG3.dropTo Side.rhs (MG3.newObj 0 (some 0) MG3.Part3.coeff "2" (.const 2) (150, 200))

def c1Oo3 : MG3.Obj3 := MG3.newObj 1 (some 0) MG3.Part3.var "sin(x)" (.app .sin .X) (210, 200)

/-- A recognized function token with its inversion flag set (dropped on the
rhs), paired with a coefficient in one group. -/
def c2Func : MG3.Obj3 :=
  MG3.dropTo Side.rhs (MG3.newObj 1 (some 0) MG3.Part3.func "exp(x)" (.app .exp .X) (800, 200))

/-- A two-member variant-3 group whose non-coeff member is `c2Func`. -/
def c2Store : List MG3.Obj3 :=
  [MG3.newObj 0 (some 0) MG3.Part3.coeff "2" (.const 2) (150, 200), c2Func]

/-- A singleton-group function token dropped on the rhs (inversion flag set),
as the variant-3 decomposer and interaction surface produce. -/
def c2Single : MG3.Obj3 :=
  MG3.dropTo Side.rhs (MG3.newObj 0 (some 0) MG3.Part3.func "exp(x)" (.app .exp .X) (800, 200))

/-- A variant-2 store whose only group has a single member. -/
def c3Store : List MG2.Obj2 := [MG2.newObj 0 (some 0) MG2.Part2.var "5" (.const 5) (150, 200)]

/-- A variant-3 store with a func token on the lhs whose inversion flag is
set: a state the interaction surface never produces. -/
def c5Store : List MG3.Obj3 :=
  [{ id := 0, group := some 0, part := MG3.Part3.func, text := "exp(x)",
     expr := .app Fn.exp .X, pos := (150, 200), location := Side.lhs, inverted := true }]

/-- A variant-2 store whose two-member group has no coeff-role member, so the
bare `next(...)` raises `StopIteration`. -/
def c9Store : List MG2.Obj2 :=
  [MG2.newObj 0 (some 0) MG2.Part2.var "x" .X (150, 200),
   MG2.newObj 1 (some 0) MG2.Part2.var "x" .X (210, 200)]

def c9State : MG2.State2 := { draggable_objects := c9Store, solution := none, history := [] }

/-- C4: in each variant, with every decomposer-produced token still on side
"lhs" and no inversion flag set — dragged to arbitrary positions short of the
midline — `update_equation` returns the equation (original expression) = 0:
the reconstructed left-hand side coincides with the startup expression. -/
theorem claim_c4_all_lhs_reconstruction (f1 : String → Int × Int)
    (f2 f3 : ℕ → Int × Int) :
    (MG1.update_equation
      { MG1.startupState with
        draggable_terms := MG1.startupState.draggable_terms.map (MG1.setPos f1) }).1
      = ⟨MG1.expr0, Expr.const 0⟩ ∧
    (MG2.update_equation
      { MG2.startupState with
        draggable_objects :=
          MG2.startupState.draggable_objects.map (MG2.setPos f2) }).map Prod.fst
      = some ⟨MG2.expr0, Expr.const 0⟩ ∧
    (MG3.update_equation
      { MG3.startupState with
        draggable_objects :=
          MG3.startupState.draggable_objects.map (MG3.setPos f3) }).1
      = ⟨MG3.expr0, Expr.const 0⟩ := by
  refine ⟨?_, ?_, ?_⟩
  · unfold MG1.update_equation
    dsimp only
    rw [MG1.updateLhs_setPos1]
    decide
  · unfold MG2.update_equation
    dsimp only
    rw [MG2.updateLhs_setPos2]
    have hL : MG2.updateLhs MG2.startupState.draggable_objects = some MG2.expr0 := by
      with_unfolding_all decide
    rw [hL]
    rfl
  · unfold MG3.update_equation
    dsimp only
    rw [MG3.updateLhs_setPos3]
    decide

/-- C6 counterexample: in the function-aware variant the startup decomposition
of `2*sin(x) + 3*cos(x) + exp(x) + tanh(x)` gives the `exp(x)` token the group
id 2 all by itself, so a non-None group id is NOT shared by exactly two
tokens and that group does enter the degenerate fallback path at startup. -/
theorem claim_c6_counterexample :
    MG3.membersG 2 (MG3.decompose MG3.terms_list) ≠ [] ∧
    (MG3.membersG 2 (MG3.decompose MG3.terms_list)).length = 1 ∧
    (MG3.membersG 2 (MG3.decompose MG3.terms_list)).length ≠ 2 := by
  refine ⟨by decide, by decide, by decide⟩

/-- C6 (amended): in `mathgodzillatwo.py` every non-None group id the
decomposer hands out is shared by exactly two tokens, a coeff-role one and a
var-role one; in the function-aware variant a nonempty group is either such a
coeff/var pair or a single func-role token (which enters the per-token
fallback path). -/
theorem claim_c6_amended (ts2 ts3 : List Expr) (g2 g3 : ℕ)
    (h2 : MG2.membersG g2 (MG2.decompose ts2) ≠ [])
    (h3 : MG3.membersG g3 (MG3.decompose ts3) ≠ []) :
    (∃ co vo, MG2.membersG g2 (MG2.decompose ts2) = [co, vo] ∧
      co.part = MG2.Part2.coeff ∧ vo.part = MG2.Part2.var) ∧
    ((∃ co vo, MG3.membersG g3 (MG3.decompose ts3) = [co, vo] ∧
      co.part = MG3.Part3.coeff ∧ vo.part = MG3.Part3.var) ∨
     (∃ fo, MG3.membersG g3 (MG3.decompose ts3) = [fo] ∧ fo.part = MG3.Part3.func)) :=
  ⟨MG2.decompose_groups2 ts2 g2 h2, MG3.decompose_groups3 ts3 g3 h3⟩

/-- C6 witness: the amended claim at the two startup term lists, at group 0 of
variant 2 and group 2 of variant 3. -/
theorem claim_c6_witness :
    (∃ co vo, MG2.membersG 0 (MG2.decompose MG2.terms_list) = [co, vo] ∧
      co.part = MG2.Part2.coeff ∧ vo.part = MG2.Part2.var) ∧
    ((∃ co vo, MG3.membersG 2 (MG3.decompose MG3.terms_list) = [co, vo] ∧
      co.part = MG3.Part3.coeff ∧ vo.part = MG3.Part3.var) ∨
     (∃ fo, MG3.membersG 2 (MG3.decompose MG3.terms_list) = [fo] ∧
      fo.part = MG3.Part3.func)) :=
  claim_c6_amended MG2.terms_list MG3.terms_list 0 2 (by decide) (by decide)

/-- C7: the function-aware variant wraps its sympy calls in `try/except`,
appending a failure line to the history and letting the state survive, while
the first two variants let the exception propagate out of the solve handler
untouched.  The sympy call's outcome is the oracle argument: `.error e` is a
raised exception. -/
theorem claim_c7_error_handling (e : String) (eq : Equation)
    (st1 : MG1.State1) (st2 : MG2.State2) (st3 : MG3.State3) :
    MG1.solve_expression (Except.error e) eq st1 = Except.error e ∧
    MG2.solve_equation (Except.error e) eq st2 = Except.error e ∧
    MG3.solve_eq (Except.error e) eq st3
      = { st3 with history := st3.history ++ ["Error solving eq: " ++ e] } ∧
    MG3.integrate_eq (Except.error e) eq st3
      = { st3 with history := st3.history ++ ["Error integrating eq: " ++ e] } ∧
    MG3.differentiate_eq (Except.error e) eq st3
      = { st3 with history := st3.history ++ ["Error differentiating eq: " ++ e] } :=
  ⟨rfl, rfl, rfl, rfl, rfl⟩

/-- C8: for the first variant's startup expression `2*x + 3 - 5` (which sympy
folds to `2*x - 2`) with every term on the lhs, `update_equation` returns the
equation `2*x - 2 = 0`, and the value `1` is the unique solution of that
equation (what `sp.solve` returns as `x = 1`). -/
theorem claim_c8_startup_example :
    (MG1.update_equation MG1.startupState).1
      = ⟨Expr.add (Expr.mul (Expr.const 2) Expr.X) (Expr.const (-2)), Expr.const 0⟩ ∧
    ∀ v : ℝ, Expr.eval (MG1.update_equation MG1.startupState).1.lhs v = 0 ↔ v = 1 := by
  have h : (MG1.update_equation MG1.startupState).1
      = ⟨Expr.add (Expr.mul (Expr.const 2) Expr.X) (Expr.const (-2)), Expr.const 0⟩ := by
    decide
  refine ⟨h, fun v => ?_⟩
  rw [h]
  simp only [Expr.eval]
  push_cast
  constructor
  · intro hv
    linarith
  · intro hv
    subst hv
    norm_num

/-- C10: in the function-aware variant, when the sympy call raises, each of
the three handlers leaves `solution` (and the token store) unchanged and
appends exactly one error entry to the history. -/
theorem claim_c10_error_preserves_solution (e : String) (eq : Equation) (st : MG3.State3) :
    ((MG3.solve_eq (Except.error e) eq st).solution = st.solution ∧
      (MG3.solve_eq (Except.error e) eq st).draggable_objects = st.draggable_objects ∧
      (MG3.solve_eq (Except.error e) eq st).history
        = st.history ++ ["Error solving eq: " ++ e]) ∧
    ((MG3.integrate_eq (Except.error e) eq st).solution = st.solution ∧
      (MG3.integrate_eq (Except.error e) eq st).draggable_objects = st.draggable_objects ∧
      (MG3.integrate_eq (Except.error e) eq st).history
        = st.history ++ ["Error integrating eq: " ++ e]) ∧
    ((MG3.differentiate_eq (Except.error e) eq st).solution = st.solution ∧
      (MG3.differentiate_eq (Except.error e) eq st).draggable_objects
        = st.draggable_objects ∧
      (MG3.differentiate_eq (Except.error e) eq st).history
        = st.history ++ ["Error differentiating eq: " ++ e]) :=
  ⟨⟨rfl, rfl, rfl⟩, ⟨rfl, rfl, rfl⟩, ⟨rfl, rfl, rfl⟩⟩

/-- C1: for every token store holding a two-member group made of a coeff-role
token and a remainder-role token (var role in variant 2; the first non-coeff
member in variant 3), `update_equation` adds that group's contribution —
`c*r` when the two tokens share a side, `r/c` when they differ, signed
positively exactly when the remainder token sits on the lhs: erasing the whole
group from the store removes exactly that amount from the reconstructed
left-hand side. -/
theorem claim_c1_group_contribution
    (S2 : List MG2.Obj2) (g2 : ℕ) (co2 vo2 : MG2.Obj2) (L : Expr)
    (S3 : List MG3.Obj3) (g3 : ℕ) (co3 oo3 : MG3.Obj3)
    (h2len : (MG2.membersG g2 S2).length = 2)
    (h2c : (MG2.membersG g2 S2).find? (fun o => decide (o.part = MG2.Part2.coeff)) = some co2)
    (h2v : (MG2.membersG g2 S2).find? (fun o => decide (o.part = MG2.Part2.var)) = some vo2)
    (h2L : MG2.updateLhs S2 = some L)
    (h3len : (MG3.membersG g3 S3).length = 2)
    (h3c : (MG3.membersG g3 S3).find? (fun o => decide (o.part = MG3.Part3.coeff)) = some co3)
    (h3o : (MG3.membersG g3 S3).find? (fun o => decide (¬ o.part = MG3.Part3.coeff)) = some oo3) :
    (∃ L2, MG2.updateLhs (MG2.eraseG g2 S2) = some L2 ∧
      ∀ v : ℝ, L.eval v = L2.eval v + ((sideSign vo2.location : ℚ) : ℝ) *
        (if co2.location = vo2.location then co2.expr.eval v * vo2.expr.eval v
         else vo2.expr.eval v / co2.expr.eval v)) ∧
    (∀ v : ℝ, (MG3.updateLhs S3).eval v =
      (MG3.updateLhs (MG3.eraseG g3 S3)).eval v + ((sideSign oo3.location : ℚ) : ℝ) *
        (if co3.location = oo3.location then co3.expr.eval v * oo3.expr.eval v
         else oo3.expr.eval v / co3.expr.eval v)) := by
  have hok : MG2.groupOk S2 g2 := fun _ => ⟨⟨co2, h2c⟩, ⟨vo2, h2v⟩⟩
  have hgc2 : ∀ v : ℝ, MG2.groupContrib S2 g2 v = ((sideSign vo2.location : ℚ) : ℝ) *
      (if co2.location = vo2.location then co2.expr.eval v * vo2.expr.eval v
       else vo2.expr.eval v / co2.expr.eval v) := by
    intro v
    unfold MG2.groupContrib
    rw [if_pos h2len, h2c, h2v]
    dsimp only
    by_cases hl : co2.location = vo2.location
    · rw [if_pos hl, if_pos hl]
    · rw [if_neg hl, if_neg hl]
      ring
  constructor
  · rcases MG2.updateLhs_erase2 S2 g2 0 hok with ⟨hn, -⟩ | ⟨L1, L2, hL1, hL2, -⟩
    · rw [h2L] at hn
      exact absurd hn (by simp)
    · refine ⟨L2, hL2, fun v => ?_⟩
      rcases MG2.updateLhs_erase2 S2 g2 v hok with ⟨hn, -⟩ | ⟨L1b, L2b, hL1b, hL2b, hev⟩
      · rw [h2L] at hn
        exact absurd hn (by simp)
      · rw [h2L] at hL1b
        rw [hL2] at hL2b
        injection hL1b with hL1b
        injection hL2b with hL2b
        subst hL1b
        subst hL2b
        rw [hev, hgc2 v]
  · intro v
    rw [MG3.updateLhs_erase3 S3 g3 v]
    congr 1
    unfold MG3.groupContrib
    rw [if_pos h3len, h3c, h3o]

/-- C1 witness: the x/2 example.  In the variant-2 startup store for
`2*x + 3` with the coefficient token "2" dropped on the rhs and everything
else on the lhs, the reconstructed left-hand side is `x/2 + 3` and contains
the contribution `x/2`; the general theorem instantiates at this store and at
the analogous variant-3 store. -/
theorem claim_c1_witness :
    MG2.updateLhs c1Store2
      = some (Expr.add (Expr.mul (Expr.const (1/2)) Expr.X) (Expr.const 3)) ∧
    Expr.hasSub (Expr.add (Expr.mul (Expr.const (1/2)) Expr.X) (Expr.const 3))
      (Expr.mul (Expr.const (1/2)) Expr.X) = true ∧
    (∃ L2, MG2.updateLhs (MG2.eraseG 0 c1Store2) = some L2 ∧
      ∀ v : ℝ, (Expr.add (Expr.mul (Expr.const (1/2)) Expr.X) (Expr.const 3)).eval v
        = L2.eval v + ((sideSign c1Vo2.location : ℚ) : ℝ) *
          (if c1Co2.location = c1Vo2.location then c1Co2.expr.eval v * c1Vo2.expr.eval v
           else c1Vo2.expr.eval v / c1Co2.expr.eval v)) ∧
    (∀ v : ℝ, (MG3.updateLhs c1Store3).eval v =
      (MG3.updateLhs (MG3.eraseG 0 c1Store3)).eval v + ((sideSign c1Oo3.location : ℚ) : ℝ) *
        (if c1Co3.location = c1Oo3.location then c1Co3.expr.eval v * c1Oo3.expr.eval v
         else c1Oo3.expr.eval v / c1Co3.expr.eval v)) := by
  have h := claim_c1_group_contribution c1Store2 0 c1Co2 c1Vo2
    (Expr.add (Expr.mul (Expr.const (1/2)) Expr.X) (Expr.const 3)) c1Store3 0 c1Co3 c1Oo3
    (by with_unfolding_all decide) (by with_unfolding_all decide)
    (by with_unfolding_all decide) (by with_unfolding_all decide)
    (by with_unfolding_all decide) (by with_unfolding_all decide)
    (by with_unfolding_all decide)
  exact ⟨by with_unfolding_all decide, by with_unfolding_all decide, h.1, h.2⟩

/-- C2 counterexample: a two-member group whose remainder token is the
recognized function `exp(x)` with its inversion flag set.  `update_equation`
divides by the coefficient (`-exp(x)/2`) instead of substituting the mapped
inverse (`-log(x)`): the two differ already at `x = 1`. -/
theorem claim_c2_counterexample :
    (MG3.membersG 0 c2Store).length = 2 ∧
    c2Func.part = MG3.Part3.func ∧
    c2Func.inverted = true ∧
    MG3.inverse_mapping Fn.exp = some Fn.log ∧
    MG3.updateLhs c2Store = Expr.mul (Expr.const (-(1/2))) (Expr.app Fn.exp Expr.X) ∧
    Expr.eval (MG3.updateLhs c2Store) 1
      ≠ Expr.eval (Expr.mul (Expr.const (-1)) (Expr.app Fn.log Expr.X)) 1 := by
  have h1 : MG3.updateLhs c2Store
      = Expr.mul (Expr.const (-(1/2))) (Expr.app Fn.exp Expr.X) := by
    with_unfolding_all decide
  refine ⟨by decide, by decide, by decide, by decide, h1, ?_⟩
  rw [h1]
  simp only [Expr.eval, Fn.interp]
  intro hc
  rw [Real.log_one] at hc
  push_cast at hc
  nlinarith [Real.exp_pos 1]

/-- C2 (amended): inverse-function substitution happens on the per-token
path, not in two-member groups: for every function token with its inversion
flag set whose head is in the mapping, `process_object` yields the mapped
inverse applied to the original argument, and when such a token is its
group's only member the reconstruction adds exactly that substituted value,
signed by the token's side.  (A two-member group always divides, ignoring the
flag — the counterexample.) -/
theorem claim_c2_amended (o : MG3.Obj3) (f fi : Fn) (a : Expr) (S : List MG3.Obj3) (g : ℕ)
    (hp : o.part = MG3.Part3.func) (hi : o.inverted = true) (he : o.expr = .app f a)
    (hm : MG3.inverse_mapping f = some fi)
    (hg : MG3.membersG g S = [o]) :
    MG3.process_object o = .app fi a ∧
    ∀ v : ℝ, (MG3.updateLhs S).eval v =
      (MG3.updateLhs (MG3.eraseG g S)).eval v +
        ((sideSign o.location : ℚ) : ℝ) * (Expr.app fi a).eval v := by
  have hpo : MG3.process_object o = .app fi a := by
    unfold MG3.process_object
    rw [if_pos ⟨hi, hp⟩, he]
    simp [hm]
  refine ⟨hpo, fun v => ?_⟩
  rw [MG3.updateLhs_erase3 S g v]
  congr 1
  unfold MG3.groupContrib
  rw [hg]
  rw [if_neg (by simp)]
  simp [MG3.contribMembers, hpo]

/-- C2 witness: the singleton-group `exp(x)` token dropped on the rhs (as the
trig variant's decomposer and interaction surface produce): its contribution
is the substituted `log(x)`, signed negatively. -/
theorem claim_c2_witness :
    MG3.process_object c2Single = Expr.app Fn.log Expr.X ∧
    ∀ v : ℝ, (MG3.updateLhs [c2Single]).eval v =
      (MG3.updateLhs (MG3.eraseG 0 [c2Single])).eval v +
        ((sideSign c2Single.location : ℚ) : ℝ) * (Expr.app Fn.log Expr.X).eval v :=
  claim_c2_amended c2Single Fn.exp Fn.log Expr.X [c2Single] 0 (by decide) (by decide)
    (by decide) (by decide) (by decide)

/-- C3 counterexample: in `mathgodzillatwo.py` a group with one member is
skipped by `update_equation` (the `continue` on `len != 2`): its token, worth
`5` on the lhs, contributes nothing, against the claimed per-token fallback
which would reconstruct `5`. -/
theorem claim_c3_counterexample :
    MG2.updateLhs c3Store = some (Expr.const 0) ∧
    MG2.updateLhs c3Store ≠ some (Expr.const 5) := by
  refine ⟨by decide, by decide⟩

/-- C3 (amended): only the function-aware variant processes a group of size
other than two token-by-token, adding each member's possibly
function-substituted value signed by its own side; `mathgodzillatwo.py` skips
such groups entirely, so their tokens contribute nothing. -/
theorem claim_c3_amended (S3 : List MG3.Obj3) (g3 : ℕ) (S2 : List MG2.Obj2) (g2 : ℕ)
    (L : Expr)
    (h3 : (MG3.membersG g3 S3).length ≠ 2)
    (h2 : (MG2.membersG g2 S2).length ≠ 2)
    (h2L : MG2.updateLhs S2 = some L) :
    (∀ v : ℝ, (MG3.updateLhs S3).eval v =
      (MG3.updateLhs (MG3.eraseG g3 S3)).eval v +
        ((MG3.membersG g3 S3).map fun o =>
          ((sideSign o.location : ℚ) : ℝ) * (MG3.process_object o).eval v).sum) ∧
    (∃ L2, MG2.updateLhs (MG2.eraseG g2 S2) = some L2 ∧ ∀ v : ℝ, L.eval v = L2.eval v) := by
  constructor
  · intro v
    rw [MG3.updateLhs_erase3 S3 g3 v]
    congr 1
    unfold MG3.groupContrib
    rw [if_neg h3]
    rfl
  · have hok : MG2.groupOk S2 g2 := fun hlen => absurd hlen h2
    have hgc : ∀ v : ℝ, MG2.groupContrib S2 g2 v = 0 := by
      intro v
      unfold MG2.groupContrib
      rw [if_neg h2]
    rcases MG2.updateLhs_erase2 S2 g2 0 hok with ⟨hn, -⟩ | ⟨L1, L2, hL1, hL2, -⟩
    · rw [h2L] at hn
      exact absurd hn (by simp)
    · refine ⟨L2, hL2, fun v => ?_⟩
      rcases MG2.updateLhs_erase2 S2 g2 v hok with ⟨hn, -⟩ | ⟨L1b, L2b, hL1b, hL2b, hev⟩
      · rw [h2L] at hn
        exact absurd hn (by simp)
      · rw [h2L] at hL1b
        rw [hL2] at hL2b
        injection hL1b with hL1b
        injection hL2b with hL2b
        subst hL1b
        subst hL2b
        rw [hev, hgc v]
        ring

/-- C3 witness: at the function-aware startup store, group 2 is the lone
`exp(x)` token and is processed individually; at the variant-2 store with a
lone group-0 token the erased store reconstructs the same value. -/
theorem claim_c3_witness :
    (∀ v : ℝ, (MG3.updateLhs MG3.startup_objects).eval v =
      (MG3.updateLhs (MG3.eraseG 2 MG3.startup_objects)).eval v +
        ((MG3.membersG 2 MG3.startup_objects).map fun o =>
          ((sideSign o.location : ℚ) : ℝ) * (MG3.process_object o).eval v).sum) ∧
    (∃ L2, MG2.updateLhs (MG2.eraseG 0 c3Store) = some L2 ∧
      ∀ v : ℝ, (Expr.const 0).eval v = L2.eval v) :=
  claim_c3_amended MG3.startup_objects 2 c3Store 0 (Expr.const 0)
    (by decide) (by decide) (by decide)

/-- C5 counterexample: a func token on the lhs with its inversion flag
already set (a store no interaction ever produces).  Moving it across and
back clears the flag, so the round trip reconstructs `exp(x) = 0` instead of
the initial `log(x) = 0`; the two differ at `x = 1`. -/
theorem claim_c5_counterexample :
    MG3.updateLhs (MG3.moveOppTwice c5Store) ≠ MG3.updateLhs c5Store ∧
    Expr.eval (MG3.updateLhs (MG3.moveOppTwice c5Store)) 1
      ≠ Expr.eval (MG3.updateLhs c5Store) 1 := by
  have h1 : MG3.updateLhs (MG3.moveOppTwice c5Store) = Expr.app Fn.exp Expr.X := by decide
  have h2 : MG3.updateLhs c5Store = Expr.app Fn.log Expr.X := by decide
  constructor
  · rw [h1, h2]
    decide
  · rw [h1, h2]
    simp only [Expr.eval, Fn.interp]
    rw [Real.log_one]
    exact Real.exp_ne_zero 1

/-- C5 (amended): moving every token to the opposite side and back restores
the reconstructed equation — unconditionally in the first two variants, and
in the function-aware variant for every store whose inversion flags agree
with the sides (which covers every state the interaction surface reaches). -/
theorem claim_c5_round_trip :
    (∀ st : MG1.State1,
      (MG1.update_equation
        { st with draggable_terms := MG1.moveOppTwice st.draggable_terms }).1
        = (MG1.update_equation st).1) ∧
    (∀ st : MG2.State2,
      (MG2.update_equation
        { st with draggable_objects := MG2.moveOppTwice st.draggable_objects }).map Prod.fst
        = (MG2.update_equation st).map Prod.fst) ∧
    (∀ st : MG3.State3, MG3.InvFlagsConsistent st.draggable_objects →
      (MG3.update_equation
        { st with draggable_objects := MG3.moveOppTwice st.draggable_objects }).1
        = (MG3.update_equation st).1) := by
  refine ⟨fun st => ?_, fun st => ?_, fun st h => ?_⟩
  · rw [MG1.roundTrip1]
  · rw [MG2.roundTrip2]
  · rw [MG3.roundTrip3 _ h]

/-- C5 witness: the round trip at the function-aware startup state (whose
inversion flags all agree with the sides). -/
theorem claim_c5_witness :
    (MG3.update_equation
      { MG3.startupState with
        draggable_objects := MG3.moveOppTwice MG3.startupState.draggable_objects }).1
      = (MG3.update_equation MG3.startupState).1 :=
  claim_c5_round_trip.2.2 MG3.startupState
    (by unfold MG3.InvFlagsConsistent; decide)

/-- C9 counterexample: on a store whose two-member group has no coeff-role
member, variant 2's `update_equation` raises (the bare `next(...)`), so it
neither returns an equation nor appends a history entry. -/
theorem claim_c9_counterexample : MG2.update_equation c9State = none := by decide

/-- C9 (amended): `update_equation` never touches the token store or the
displayed solution and appends exactly one history string, returning the
reconstructed equation — unconditionally in variants 1 and 3, and in
variant 2 whenever it returns at all (it raises on a two-member group missing
a coeff-role or var-role member). -/
theorem claim_c9_frame :
    (∀ st : MG1.State1,
      (MG1.update_equation st).1 = ⟨MG1.updateLhs st.draggable_terms, Expr.const 0⟩ ∧
      (MG1.update_equation st).2.draggable_terms = st.draggable_terms ∧
      (MG1.update_equation st).2.solution = st.solution ∧
      ∃ m : String, (MG1.update_equation st).2.history = st.history ++ [m]) ∧
    (∀ st : MG3.State3,
      (MG3.update_equation st).1 = ⟨MG3.updateLhs st.draggable_objects, Expr.const 0⟩ ∧
      (MG3.update_equation st).2.draggable_objects = st.draggable_objects ∧
      (MG3.update_equation st).2.solution = st.solution ∧
      ∃ m : String, (MG3.update_equation st).2.history = st.history ++ [m]) ∧
    (∀ (st : MG2.State2) (r : Equation × MG2.State2), MG2.update_equation st = some r →
      (∃ L, MG2.updateLhs st.draggable_objects = some L ∧ r.1 = ⟨L, Expr.const 0⟩) ∧
      r.2.draggable_objects = st.draggable_objects ∧
      r.2.solution = st.solution ∧
      ∃ m : String, r.2.history = st.history ++ [m]) := by
  refine ⟨fun st => ⟨rfl, rfl, rfl, ⟨_, rfl⟩⟩, fun st => ⟨rfl, rfl, rfl, ⟨_, rfl⟩⟩,
    fun st r hr => ?_⟩
  rw [MG2.update_equation] at hr
  cases hL : MG2.updateLhs st.draggable_objects with
  | none =>
    rw [hL] at hr
    simp at hr
  | some L =>
    rw [hL] at hr
    simp only [Option.map] at hr
    injection hr with hr
    subst hr
    exact ⟨⟨L, rfl, rfl⟩, rfl, rfl, ⟨_, rfl⟩⟩

/-- The value variant 2's `update_equation` returns at its startup state. -/
def c9R : Equation × MG2.State2 :=
  (⟨MG2.expr0, Expr.const 0⟩,
   { MG2.startupState with
     history := ["Updated equation: Eq(2*x + 3, 0)"] })

/-- C9 witness: the frame conditions at the variant-2 startup state, whose
`update_equation` returns `c9R`. -/
theorem claim_c9_witness :
    (∃ L, MG2.updateLhs MG2.startupState.draggable_objects = some L ∧
      c9R.1 = ⟨L, Expr.const 0⟩) ∧
    c9R.2.draggable_objects = MG2.startupState.draggable_objects ∧
    c9R.2.solution = MG2.startupState.solution ∧
    ∃ m : String, c9R.2.history = MG2.startupState.history ++ [m] :=
  claim_c9_frame.2.2 MG2.startupState c9R (by decide)

end MG
